import Mathlib

/-!
Verification of the range-aware history cache in `src/cache.py`
(`node_read_full_history` and class `NodeHistoryCache`).

Timestamps (Python `datetime` values) are modelled by the rationals
`ℚ`, an executable densely linearly ordered type.  The intervals of
the `portion` library are modelled by lists of atomic intervals with
open/closed and possibly infinite bounds, the representation
`portion` itself uses (sorted, disjoint, non-mergeable, nonempty
atomic intervals); the operations the source uses (`interval.open`,
`interval.empty`, `|`, `.complement()`, `.intersection()`, `.empty`,
iteration over atomic intervals and their `.lower`/`.upper`) are
implemented on that representation.  The Python `dict` keyed by
intervals is an insertion-ordered association list with Python's
assignment semantics (updating an existing key keeps its position, a
new key is appended at the end).  The unbounded `while` loop of
`node_read_full_history` is modelled with explicit fuel (`none` = the
loop did not finish within the given fuel); the external OPC-UA node
is a function from a requested range to either one page of data
values or an error (a raised exception).
-/

namespace CachePy

/-- Timestamps (`datetime`), modelled as rationals. -/
abbrev Time := ℚ

/-- One sample of the node's history (a `DataValue` in the source);
`value` stands in for the opaque payload. -/
structure DataPoint where
  sourceTimestamp : Time
  value : Int
deriving DecidableEq, Repr

/-- One atomic interval of the `portion` library: a lower and an upper
bound, each open or closed, `none` standing for `-∞` in `lo` and for
`+∞` in `hi`. -/
structure Atomic where
  lo : Option Time
  loOpen : Bool
  hi : Option Time
  hiOpen : Bool
deriving DecidableEq, Repr

/-- Membership of a timestamp in an atomic interval. -/
def Atomic.mem (a : Atomic) (t : Time) : Bool :=
  (match a.lo with
   | none => true
   | some l => if a.loOpen then decide (l < t) else decide (l ≤ t)) &&
  (match a.hi with
   | none => true
   | some h => if a.hiOpen then decide (t < h) else decide (t ≤ h))

/-- `portion`'s emptiness test for an atomic interval: empty iff the
bounds are crossed, or equal with at least one open end. -/
def Atomic.nonempty (a : Atomic) : Bool :=
  match a.lo, a.hi with
  | none, _ => true
  | _, none => true
  | some l, some h => decide (l < h) || (decide (l = h) && !a.loOpen && !a.hiOpen)

/-- A `portion` interval: a list of atomic intervals. -/
abbrev PInterval := List Atomic

/-- Membership of a timestamp in a `portion` interval. -/
def memI (l : PInterval) (t : Time) : Bool :=
  l.any (fun a => a.mem t)

/-- Lower-bound comparison used to sort atomic intervals: `-∞` first,
then by value, a closed bound before an open bound at the same
value. -/
def loLeB (a b : Atomic) : Bool :=
  match a.lo, b.lo with
  | none, _ => true
  | some _, none => false
  | some x, some y => decide (x < y) || (decide (x = y) && (!a.loOpen || b.loOpen))

/-- The sorting relation on atomic intervals (by lower bound). -/
def loLe (a b : Atomic) : Prop := loLeB a b = true

instance : DecidableRel loLe := fun _ _ => inferInstanceAs (Decidable (_ = true))

/-- `portion`'s test whether two atomic intervals (the first starting
no later than the second) overlap or touch, so that their union is a
single atomic interval. -/
def touches (a b : Atomic) : Bool :=
  match a.hi, b.lo with
  | none, _ => true
  | _, none => true
  | some h, some l => decide (l < h) || (decide (l = h) && (!a.hiOpen || !b.loOpen))

/-- Upper-bound comparison: `hiLeB a b` iff `a`'s upper bound is no
higher than `b`'s (`none` = `+∞`; at equal values a closed bound is
higher than an open one). -/
def hiLeB (a b : Atomic) : Bool :=
  match a.hi, b.hi with
  | _, none => true
  | none, some _ => false
  | some x, some y => decide (x < y) || (decide (x = y) && (!b.hiOpen || a.hiOpen))

/-- Merge two touching atomic intervals into one (the first starting
no later than the second): keep the first's lower bound and the
higher of the two upper bounds. -/
def mergeA (a b : Atomic) : Atomic :=
  if hiLeB a b then ⟨a.lo, a.loOpen, b.hi, b.hiOpen⟩ else a

/-- Left-to-right coalescing pass: `fuseAux a l` walks `l`, merging
the running atomic interval `a` with the next one whenever their
union is connected, as `portion` does when building an interval from
lower-bound-sorted atomic pieces. -/
def fuseAux (a : Atomic) : List Atomic → List Atomic
  | [] => [a]
  | b :: rest => if touches a b then fuseAux (mergeA a b) rest else a :: fuseAux b rest

/-- Coalesce a lower-bound-sorted list of atomic intervals by merging
neighbours whose union is connected. -/
def fuse : List Atomic → List Atomic
  | [] => []
  | a :: rest => fuseAux a rest

/-- Normalization of a list of atomic intervals into `portion`'s
canonical form: drop empty atomic intervals, sort by lower bound,
merge connected neighbours. -/
def normalize (l : List Atomic) : List Atomic :=
  fuse (List.insertionSort loLe (l.filter Atomic.nonempty))

/-- `portion`'s union `a | b`. -/
def union (A B : PInterval) : PInterval := normalize (A ++ B)

/-- The tighter (larger) of two lower bounds; at equal values an open
bound is the tighter one. -/
def tightLo (a b : Atomic) : Option Time × Bool :=
  match a.lo, b.lo with
  | none, _ => (b.lo, b.loOpen)
  | _, none => (a.lo, a.loOpen)
  | some x, some y =>
    if x < y then (b.lo, b.loOpen)
    else if y < x then (a.lo, a.loOpen)
    else (some x, a.loOpen || b.loOpen)

/-- The tighter (smaller) of two upper bounds; at equal values an open
bound is the tighter one. -/
def tightHi (a b : Atomic) : Option Time × Bool :=
  match a.hi, b.hi with
  | none, _ => (b.hi, b.hiOpen)
  | _, none => (a.hi, a.hiOpen)
  | some x, some y =>
    if x < y then (a.hi, a.hiOpen)
    else if y < x then (b.hi, b.hiOpen)
    else (some x, a.hiOpen || b.hiOpen)

/-- Intersection of two atomic intervals, `none` when empty: each side
keeps the tighter bound. -/
def atomicInter (a b : Atomic) : Option Atomic :=
  if (Atomic.mk (tightLo a b).1 (tightLo a b).2 (tightHi a b).1 (tightHi a b).2).nonempty
  then some (Atomic.mk (tightLo a b).1 (tightLo a b).2 (tightHi a b).1 (tightHi a b).2)
  else none

/-- `portion`'s `.intersection()`: pairwise atomic intersections. -/
def inter (A B : PInterval) : PInterval :=
  A.flatMap (fun a => B.filterMap (fun b => atomicInter a b))

/-- The whole timeline `(-∞, +∞)`. -/
def fullAtomic : Atomic := ⟨none, true, none, true⟩

/-- The complement of one atomic interval: up to two rays, with the
bound types flipped. -/
def atomicComplement (a : Atomic) : PInterval :=
  (match a.lo with
   | none => []
   | some l => [⟨none, true, some l, !a.loOpen⟩]) ++
  (match a.hi with
   | none => []
   | some h => [⟨some h, !a.hiOpen, none, true⟩])

/-- `portion`'s `.complement()`: intersect the complements of the
atomic intervals, starting from the whole timeline. -/
def complement (A : PInterval) : PInterval :=
  A.foldl (fun acc a => inter acc (atomicComplement a)) [fullAtomic]

/-- `interval.open(a, b)`: the open interval with the given bounds,
empty when the bounds are crossed or equal (`portion` raises no error
there).  `none` bounds are kept for `±∞`, as used when
`_populate_cache` re-wraps an atomic interval's bounds. -/
def pyOpen (lo hi : Option Time) : PInterval :=
  if (Atomic.mk lo true hi true).nonempty then [Atomic.mk lo true hi true] else []

/-- `portion`'s `Interval.lower`: the first atomic interval's lower
bound (the empty case is never consulted by the modelled code, which
asks only after an emptiness check). -/
def iLower (l : PInterval) : Option Time :=
  match l.head? with | none => none | some a => a.lo

/-- `portion`'s `Interval.upper`: the last atomic interval's upper
bound. -/
def iUpper (l : PInterval) : Option Time :=
  match l.getLast? with | none => none | some a => a.hi

/-- The external OPC-UA node: `read_raw_history(starttime, endtime)`
returns one page of data values or raises. -/
abbrev Node := Time → Time → Except Unit (List DataPoint)

/-- `node_read_full_history(node, start, end)` (src/cache.py lines
7–23): repeatedly page through `node.read_raw_history`, restarting at
the last returned timestamp, until an empty page, a page ending at
the cursor, or a cursor past `end`.  The Python loop is unbounded, so
the model takes fuel and returns `none` when the fuel runs out before
the loop finishes.  The result carries the number of
`read_raw_history` calls made; a raised exception is propagated
(with the count of calls, the failing one included), and the page
lists yielded before it are discarded, as `list()` over the generator
does. -/
def node_read_full_history (node : Node) :
    Nat → Time → Time → Option (Except Unit (List DataPoint) × Nat)
  | 0, _, _ => none
  | fuel + 1, start, stop =>
    match node start stop with
    | .error e => some (.error e, 1)
    | .ok vals =>
      match vals.getLast? with
      | none => some (.ok vals, 1)
      | some lastv =>
        if start = lastv.sourceTimestamp then some (.ok vals, 1)
        else if stop < start then some (.ok vals, 1)
        else
          match node_read_full_history node fuel lastv.sourceTimestamp stop with
          | none => none
          | some (.error e, n) => some (.error e, n + 1)
          | some (.ok rest, n) => some (.ok (vals ++ rest), n + 1)

/-- The cache's `history` dict, as its insertion-ordered list of
bindings. -/
abbrev Hist := List (PInterval × List DataPoint)

/-- Python `d[k] = v`: replace the value at an existing key in place,
else append the new binding. -/
def histSet (h : Hist) (k : PInterval) (v : List DataPoint) : Hist :=
  if h.any (fun p => decide (p.1 = k)) then
    h.map (fun p => if p.1 = k then (k, v) else p)
  else h ++ [(k, v)]

/-- `_history_available_interval` (lines 43–46): `reduce` of `|` over
the interval keys in insertion order, `interval.empty()` for an empty
cache. -/
def history_available_interval (h : Hist) : PInterval :=
  match h with
  | [] => []
  | p :: rest => rest.foldl (fun acc q => union acc q.1) p.1

/-- `_get_available_interval` (lines 52–60). -/
def get_available_interval (h : Hist) (start stop : Time) : PInterval :=
  inter (history_available_interval h) (pyOpen (some start) (some stop))

/-- `_get_missing_intervals` (lines 48–50). -/
def get_missing_intervals (h : Hist) (start stop : Time) : PInterval :=
  inter (complement (get_available_interval h start stop)) (pyOpen (some start) (some stop))

/-- `_populate_cache` (lines 62–68): for each atomic missing interval,
fetch its full history and store the result list under
`interval.open(lower, upper)`.  Returns the updated mapping, whether
an exception escaped (aborting the remaining intervals), and the
total number of `read_raw_history` calls; `none` when a fetch loop
exceeds its fuel.  The atomic intervals handed over by `get_history`
always have finite bounds (they lie inside the open query range), so
the `.getD 0` defaults for infinite bounds are never consulted on
reachable inputs. -/
def populate_cache (node : Node) (fuel : Nat) :
    Hist → List Atomic → Option (Hist × Bool × Nat)
  | h, [] => some (h, false, 0)
  | h, a :: rest =>
    match node_read_full_history node fuel (a.lo.getD 0) (a.hi.getD 0) with
    | none => none
    | some (.error _, n) => some (h, true, n)
    | some (.ok dvs, n) =>
      match populate_cache node fuel (histSet h (pyOpen a.lo a.hi) dvs) rest with
      | none => none
      | some (h2, er, m) => some (h2, er, n + m)

/-- `_get_partial_dvs` (lines 70–72): the data values whose timestamp
lies in `[start, stop]`, both ends inclusive (`none` bounds, for
`portion`'s `±∞`, exclude nothing). -/
def get_partial_dvs (start stop : Option Time) (dvs : List DataPoint) : List DataPoint :=
  dvs.filter (fun x =>
    (match start with | none => true | some s => decide (s ≤ x.sourceTimestamp)) &&
    (match stop with | none => true | some e => decide (x.sourceTimestamp ≤ e)))

/-- `_dvs_from_cache` (lines 74–82): walk the cache bindings in dict
(insertion) order and, for every key intersecting the open query
range, yield its values filtered to the intersection's bounds,
inclusive. -/
def dvs_from_cache (h : Hist) (start stop : Time) : List DataPoint :=
  h.flatMap (fun p =>
    if inter p.1 (pyOpen (some start) (some stop)) = [] then []
    else get_partial_dvs (iLower (inter p.1 (pyOpen (some start) (some stop))))
      (iUpper (inter p.1 (pyOpen (some start) (some stop)))) p.2)

/-- The observable outcome of one `get_history` call. -/
structure QueryResult where
  hist : Hist
  raised : Bool
  points : List DataPoint
  fetches : Nat
deriving DecidableEq, Repr

/-- `get_history` (lines 84–96): compute the missing sub-intervals,
populate the cache for them when there are any, and return the
generator `_dvs_from_cache(start, stop)`, materialized.  `raised`
records a source exception escaping to the caller (no sequence is
returned then, `points = []`); `fetches` counts `read_raw_history`
calls; `none` means a fetch loop ran out of fuel. -/
def get_history (node : Node) (fuel : Nat) (h : Hist) (start stop : Time) :
    Option QueryResult :=
  if get_missing_intervals h start stop = [] then
    some ⟨h, false, dvs_from_cache h start stop, 0⟩
  else
    match populate_cache node fuel h (get_missing_intervals h start stop) with
    | none => none
    | some (h2, true, n) => some ⟨h2, true, [], n⟩
    | some (h2, false, n) => some ⟨h2, false, dvs_from_cache h2 start stop, n⟩

/-- A sequence of `get_history` calls against one cache (the usage
pattern of the script at the bottom of src/cache.py); the mapping
persists across calls, also when a call raises. -/
def run_queries (node : Node) (fuel : Nat) : Hist → List (Time × Time) → Option Hist
  | h, [] => some h
  | h, (s, e) :: qs =>
    match get_history node fuel h s e with
    | none => none
    | some r => run_queries node fuel r.hist qs

/-! ### Semantic predicates used to state the claims -/

/-- The lower-bound constraint of an atomic interval, as a
proposition. -/
def SatLo : Option Time → Bool → Time → Prop
  | none, _, _ => True
  | some l, true, t => l < t
  | some l, false, t => l ≤ t

/-- The upper-bound constraint of an atomic interval, as a
proposition. -/
def SatHi : Option Time → Bool → Time → Prop
  | none, _, _ => True
  | some h, true, t => t < h
  | some h, false, t => t ≤ h

/-- The finite bounds of an atomic interval. -/
def aBounds (a : Atomic) : List Time := a.lo.toList ++ a.hi.toList

/-- The finite bounds of all atomic intervals of a `portion`
interval. -/
def iBounds (l : PInterval) : List Time := l.flatMap aBounds

/-- The finite bounds of all interval keys of the cache. -/
def keyBounds (h : Hist) : List Time := h.flatMap (fun p => iBounds p.1)

/-- Timestamp order on data points. -/
def tsLe (p q : DataPoint) : Prop := p.sourceTimestamp ≤ q.sourceTimestamp

instance : DecidableRel tsLe := fun _ _ => inferInstanceAs (Decidable (_ ≤ _))

/-- Two atomic intervals share no timestamp. -/
def ADisj (a b : Atomic) : Prop :=
  ∀ t, ¬(a.mem t = true ∧ b.mem t = true)

/-- Two interval keys share no timestamp. -/
def KeyDisj (p q : PInterval × List DataPoint) : Prop :=
  ∀ t, ¬(memI p.1 t = true ∧ memI q.1 t = true)

/-- All interval keys of the cache are mutually disjoint. -/
def KeysDisjoint (h : Hist) : Prop := List.Pairwise KeyDisj h

/-- The contract of the external source (§6 of the spec): every
returned page is sorted ascending by timestamp and lies inside the
requested closed range. -/
def GoodNode (node : Node) : Prop :=
  ∀ s e vals, node s e = .ok vals →
    List.Sorted tsLe vals ∧ ∀ p ∈ vals, s ≤ p.sourceTimestamp ∧ p.sourceTimestamp ≤ e

/-- A well-formed cache binding: its point list is sorted ascending
and every point's timestamp lies within the closed bounds of the key
interval. -/
def EntryGood (p : PInterval × List DataPoint) : Prop :=
  List.Sorted tsLe p.2 ∧
  ∀ a ∈ p.1, ∀ x ∈ p.2, SatLo a.lo false x.sourceTimestamp ∧ SatHi a.hi false x.sourceTimestamp

/-! ### Concrete sources used for counterexamples and witnesses -/

/-- A source with no data at all: every page request returns the empty
page. -/
def nodeEmpty : Node := fun _ _ => .ok []

/-- A fixed five-sample history, ascending timestamps `1..5`. -/
def dataPts : List DataPoint := [⟨1, 1⟩, ⟨2, 2⟩, ⟨3, 3⟩, ⟨4, 4⟩, ⟨5, 5⟩]

/-- A source holding `dataPts` that answers every page request with
all its samples in the requested closed range. -/
def nodeData : Node := fun s e =>
  .ok (dataPts.filter (fun p => decide (s ≤ p.sourceTimestamp) && decide (p.sourceTimestamp ≤ e)))

/-- A source that raises on every page request starting at `3` or
later and returns an empty page otherwise. -/
def nodeErr : Node := fun s _ => if 3 ≤ s then .error () else .ok []

/-- A source that always returns one sample at timestamp `10`,
overshooting every earlier requested upper bound (the OPC-UA
"bounding value after the end" behavior). -/
def nodeOvershoot : Node := fun _ _ => .ok [⟨10, 10⟩]

/-! ### Basic facts about atomic intervals -/

lemma Atomic.mem_iff {a : Atomic} {t : Time} :
    a.mem t = true ↔ SatLo a.lo a.loOpen t ∧ SatHi a.hi a.hiOpen t := by
  obtain ⟨lo, lO, hi, hO⟩ := a
  cases lo <;> cases hi <;> cases lO <;> cases hO <;>
    simp [Atomic.mem, SatLo, SatHi]

lemma satLo_of_lt {l t : Time} (h : l < t) (o : Bool) : SatLo (some l) o t := by
  cases o <;> simp [SatLo] <;> linarith

lemma satHi_of_lt {h t : Time} (hlt : t < h) (o : Bool) : SatHi (some h) o t := by
  cases o <;> simp [SatHi] <;> linarith

lemma satLo_le {l t : Time} {o : Bool} (h : SatLo (some l) o t) : l ≤ t := by
  cases o <;> simp [SatLo] at h <;> linarith

lemma satHi_le {h t : Time} {o : Bool} (hh : SatHi (some h) o t) : t ≤ h := by
  cases o <;> simp [SatHi] at hh <;> linarith

/-- A timestamp inside an atomic interval witnesses its
nonemptiness. -/
lemma Atomic.mem_nonempty {a : Atomic} {t : Time} (h : a.mem t = true) :
    a.nonempty = true := by
  obtain ⟨lo, lO, hi, hO⟩ := a
  cases lo <;> cases hi <;> cases lO <;> cases hO <;>
      simp [Atomic.mem, Atomic.nonempty] at h ⊢ <;>
    obtain ⟨h1, h2⟩ := h
  case mk.some.some.false.false.intro =>
    rcases lt_or_eq_of_le (le_trans h1 h2) with hc | hc
    · exact Or.inl hc
    · exact Or.inr hc
  all_goals exact (by linarith)

/-- Over the dense order `ℚ`, a symbolically nonempty atomic interval
has a member. -/
lemma Atomic.nonempty_exists_mem {a : Atomic} (h : a.nonempty = true) :
    ∃ t, a.mem t = true := by
  obtain ⟨lo, lO, hi, hO⟩ := a
  cases lo <;> cases hi
  · exact ⟨0, by rw [Atomic.mem_iff]; exact ⟨trivial, trivial⟩⟩
  case none.some hv =>
    exact ⟨hv - 1, by rw [Atomic.mem_iff]; exact ⟨trivial, satHi_of_lt (by linarith) _⟩⟩
  case some.none lv =>
    exact ⟨lv + 1, by rw [Atomic.mem_iff]; exact ⟨satLo_of_lt (by linarith) _, trivial⟩⟩
  case some.some lv hv =>
    simp [Atomic.nonempty] at h
    rcases h with h | ⟨⟨heq, hlc⟩, hhc⟩
    · refine ⟨(lv + hv) / 2, ?_⟩
      rw [Atomic.mem_iff]
      exact ⟨satLo_of_lt (by linarith) _, satHi_of_lt (by linarith) _⟩
    · subst heq hlc hhc
      exact ⟨lv, by rw [Atomic.mem_iff]; simp [SatLo, SatHi]⟩

lemma memI_iff {l : PInterval} {t : Time} :
    memI l t = true ↔ ∃ a ∈ l, a.mem t = true := by
  simp [memI, List.any_eq_true]

/-! ### The lower/upper bound order -/

lemma loLeB_total {a b : Atomic} (h : loLeB a b = false) : loLeB b a = true := by
  obtain ⟨lo, lO, hi, hO⟩ := a
  obtain ⟨lo', lO', hi', hO'⟩ := b
  cases lo <;> cases lo' <;> simp [loLeB] at h ⊢
  case some.some x y =>
    obtain ⟨h1, h2⟩ := h
    rcases lt_trichotomy x y with hc | hc | hc
    · exact absurd hc (not_lt.mpr h1)
    · subst hc
      cases lO <;> cases lO' <;> simp_all
    · exact Or.inl hc

lemma hiLeB_total {a b : Atomic} (h : hiLeB a b = false) : hiLeB b a = true := by
  obtain ⟨lo, lO, hi, hO⟩ := a
  obtain ⟨lo', lO', hi', hO'⟩ := b
  cases hi <;> cases hi' <;> simp [hiLeB] at h ⊢
  case some.some x y =>
    obtain ⟨h1, h2⟩ := h
    rcases lt_trichotomy y x with hc | hc | hc
    · exact Or.inl hc
    · subst hc
      cases hO <;> cases hO' <;> simp_all
    · exact absurd hc (not_lt.mpr h1)

instance : IsTotal Atomic loLe :=
  ⟨fun a b => by
    by_cases h : loLeB a b = true
    · exact Or.inl h
    · exact Or.inr (loLeB_total (Bool.eq_false_iff.mpr h))⟩

instance : IsTrans Atomic loLe :=
  ⟨fun a b c hab hbc => by
    obtain ⟨lo, lO, hi, hO⟩ := a
    obtain ⟨lo', lO', hi', hO'⟩ := b
    obtain ⟨lo'', lO'', hi'', hO''⟩ := c
    unfold loLe loLeB at *
    cases lo <;> cases lo' <;> cases lo'' <;> simp_all
    case some.some.some x y z =>
      rcases hab with h1 | ⟨h1, h1'⟩ <;> rcases hbc with h2 | ⟨h2, h2'⟩
      · exact Or.inl (lt_trans h1 h2)
      · exact Or.inl (h2 ▸ h1)
      · exact Or.inl (h1 ▸ h2)
      · subst h1 h2
        cases lO <;> cases lO' <;> cases lO'' <;> simp_all⟩

/-- `SatLo` is antitone along the lower-bound order. -/
lemma satLo_mono {a b : Atomic} (hab : loLe a b) {t : Time}
    (h : SatLo b.lo b.loOpen t) : SatLo a.lo a.loOpen t := by
  obtain ⟨lo, lO, hi, hO⟩ := a
  obtain ⟨lo', lO', hi', hO'⟩ := b
  unfold loLe loLeB at hab
  cases lo <;> cases lo' <;> simp_all [SatLo]
  case some.some x y =>
    rcases hab with h1 | ⟨h1, h1'⟩
    · have := satLo_le h
      exact satLo_of_lt (by linarith) _
    · subst h1
      cases lO <;> cases lO' <;> simp_all [SatLo]
      exact le_of_lt h

/-- `SatHi` is monotone along the upper-bound order. -/
lemma satHi_mono {a b : Atomic} (hab : hiLeB a b = true) {t : Time}
    (h : SatHi a.hi a.hiOpen t) : SatHi b.hi b.hiOpen t := by
  obtain ⟨lo, lO, hi, hO⟩ := a
  obtain ⟨lo', lO', hi', hO'⟩ := b
  unfold hiLeB at hab
  cases hi <;> cases hi' <;> simp_all [SatHi]
  case some.some x y =>
    rcases hab with h1 | ⟨h1, h1'⟩
    · have := satHi_le h
      exact satHi_of_lt (by linarith) _
    · subst h1
      cases hO <;> cases hO' <;> simp_all [SatHi]
      exact le_of_lt h

/-! ### Membership under intersection and complement -/

lemma memI_nil {t : Time} : memI [] t = false := rfl

lemma memI_cons {a : Atomic} {l : PInterval} {t : Time} :
    memI (a :: l) t = (a.mem t || memI l t) := by
  simp [memI]

lemma satLo_tightLo {a b : Atomic} {t : Time} :
    SatLo (tightLo a b).1 (tightLo a b).2 t ↔
      SatLo a.lo a.loOpen t ∧ SatLo b.lo b.loOpen t := by
  obtain ⟨lo, lO, hi, hO⟩ := a
  obtain ⟨lo', lO', hi', hO'⟩ := b
  cases lo <;> cases lo' <;> simp [tightLo, SatLo]
  case some.some x y =>
    rcases lt_trichotomy x y with hc | hc | hc
    · rw [if_pos hc]
      constructor
      · intro h; exact ⟨satLo_of_lt (lt_of_lt_of_le hc (satLo_le h)) _, h⟩
      · exact And.right
    · subst hc
      rw [if_neg (lt_irrefl x), if_neg (lt_irrefl x)]
      cases lO <;> cases lO' <;> simp [SatLo]
      all_goals exact fun h => h.le
    · rw [if_neg (not_lt.mpr hc.le), if_pos hc]
      constructor
      · intro h; exact ⟨h, satLo_of_lt (lt_of_lt_of_le hc (satLo_le h)) _⟩
      · exact And.left

lemma satHi_tightHi {a b : Atomic} {t : Time} :
    SatHi (tightHi a b).1 (tightHi a b).2 t ↔
      SatHi a.hi a.hiOpen t ∧ SatHi b.hi b.hiOpen t := by
  obtain ⟨lo, lO, hi, hO⟩ := a
  obtain ⟨lo', lO', hi', hO'⟩ := b
  cases hi <;> cases hi' <;> simp [tightHi, SatHi]
  case some.some x y =>
    rcases lt_trichotomy x y with hc | hc | hc
    · rw [if_pos hc]
      constructor
      · intro h; exact ⟨h, satHi_of_lt (lt_of_le_of_lt (satHi_le h) hc) _⟩
      · exact And.left
    · subst hc
      rw [if_neg (lt_irrefl x), if_neg (lt_irrefl x)]
      cases hO <;> cases hO' <;> simp [SatHi]
      all_goals exact fun h => h.le
    · rw [if_neg (not_lt.mpr hc.le), if_pos hc]
      constructor
      · intro h; exact ⟨satHi_of_lt (lt_of_le_of_lt (satHi_le h) hc) _, h⟩
      · exact And.right

lemma mem_atomicInter {a b : Atomic} {t : Time} :
    (∃ c, atomicInter a b = some c ∧ c.mem t = true) ↔
      (a.mem t = true ∧ b.mem t = true) := by
  have key : (Atomic.mem ⟨(tightLo a b).1, (tightLo a b).2, (tightHi a b).1,
      (tightHi a b).2⟩ t = true) ↔ (a.mem t = true ∧ b.mem t = true) := by
    rw [Atomic.mem_iff, Atomic.mem_iff, Atomic.mem_iff]
    constructor
    · rintro ⟨h1, h2⟩
      obtain ⟨ha1, hb1⟩ := satLo_tightLo.mp h1
      obtain ⟨ha2, hb2⟩ := satHi_tightHi.mp h2
      exact ⟨⟨ha1, ha2⟩, hb1, hb2⟩
    · rintro ⟨⟨ha1, ha2⟩, hb1, hb2⟩
      exact ⟨satLo_tightLo.mpr ⟨ha1, hb1⟩, satHi_tightHi.mpr ⟨ha2, hb2⟩⟩
  rw [← key]
  unfold atomicInter
  split
  · constructor
    · rintro ⟨c, hc, hm⟩
      cases Option.some.inj hc
      exact hm
    · intro hm; exact ⟨_, rfl, hm⟩
  · rename_i hne
    constructor
    · rintro ⟨c, hc, hm⟩; cases hc
    · intro hm; exact absurd (Atomic.mem_nonempty hm) hne

lemma memI_inter {A B : PInterval} {t : Time} :
    memI (inter A B) t = true ↔ (memI A t = true ∧ memI B t = true) := by
  simp only [memI_iff, inter, List.mem_flatMap, List.mem_filterMap]
  constructor
  · rintro ⟨c, ⟨a, ha, b, hb, hab⟩, hm⟩
    have h2 := mem_atomicInter (a := a) (b := b) (t := t) |>.mp ⟨c, hab, hm⟩
    exact ⟨⟨a, ha, h2.1⟩, ⟨b, hb, h2.2⟩⟩
  · rintro ⟨⟨a, ha, hma⟩, ⟨b, hb, hmb⟩⟩
    obtain ⟨c, hc, hm⟩ := mem_atomicInter.mpr ⟨hma, hmb⟩
    exact ⟨c, ⟨a, ha, b, hb, hc⟩, hm⟩

lemma satLo_none {o : Bool} {t : Time} : SatLo none o t := by
  cases o <;> trivial

lemma satHi_none {o : Bool} {t : Time} : SatHi none o t := by
  cases o <;> trivial

lemma not_satLo_iff {l : Time} {o : Bool} {t : Time} :
    ¬ SatLo (some l) o t ↔ SatHi (some l) (!o) t := by
  cases o <;> simp [SatLo, SatHi]

lemma not_satHi_iff {h : Time} {o : Bool} {t : Time} :
    ¬ SatHi (some h) o t ↔ SatLo (some h) (!o) t := by
  cases o <;> simp [SatLo, SatHi]

lemma memI_atomicComplement {a : Atomic} {t : Time} :
    memI (atomicComplement a) t = true ↔ ¬(a.mem t = true) := by
  obtain ⟨lo, lO, hi, hO⟩ := a
  rw [Atomic.mem_iff]
  cases lo <;> cases hi
  · simp [atomicComplement, memI_nil, SatLo, SatHi]
  case none.some hv =>
    rw [show atomicComplement ⟨none, lO, some hv, hO⟩ =
        [⟨some hv, !hO, none, true⟩] from rfl]
    rw [memI_cons, memI_nil, Bool.or_false, Atomic.mem_iff]
    simp only [satLo_none, satHi_none, true_and, and_true]
    exact not_satHi_iff.symm
  case some.none lv =>
    rw [show atomicComplement ⟨some lv, lO, none, hO⟩ =
        [⟨none, true, some lv, !lO⟩] from rfl]
    rw [memI_cons, memI_nil, Bool.or_false, Atomic.mem_iff]
    simp only [satLo_none, satHi_none, true_and, and_true]
    exact not_satLo_iff.symm
  case some.some lv hv =>
    rw [show atomicComplement ⟨some lv, lO, some hv, hO⟩ =
        [⟨none, true, some lv, !lO⟩, ⟨some hv, !hO, none, true⟩] from rfl]
    rw [memI_cons, memI_cons, memI_nil, Bool.or_false]
    rw [Bool.or_eq_true, Atomic.mem_iff, Atomic.mem_iff]
    simp only [satLo_none, satHi_none, true_and, and_true]
    rw [not_and_or, not_satLo_iff, not_satHi_iff]

lemma memI_foldl_inter {l : List Atomic} {init : PInterval} {t : Time} :
    memI (l.foldl (fun acc a => inter acc (atomicComplement a)) init) t = true ↔
      memI init t = true ∧ ∀ a ∈ l, ¬(a.mem t = true) := by
  induction l generalizing init with
  | nil => simp
  | cons a l ih =>
    rw [List.foldl_cons, ih, memI_inter, memI_atomicComplement,
      List.forall_mem_cons, and_assoc]

lemma memI_full {t : Time} : memI [fullAtomic] t = true := by
  rw [memI_cons, memI_nil, Bool.or_false, Atomic.mem_iff]
  exact ⟨satLo_none, satHi_none⟩

lemma memI_complement {A : PInterval} {t : Time} :
    memI (complement A) t = true ↔ ¬(memI A t = true) := by
  unfold complement
  rw [memI_foldl_inter]
  constructor
  · rintro ⟨-, h⟩ hmem
    obtain ⟨a, ha, hm⟩ := memI_iff.mp hmem
    exact h a ha hm
  · intro h
    exact ⟨memI_full, fun a ha hm => h (memI_iff.mpr ⟨a, ha, hm⟩)⟩

lemma memI_pyOpen {lo hi : Option Time} {t : Time} :
    memI (pyOpen lo hi) t = true ↔ SatLo lo true t ∧ SatHi hi true t := by
  unfold pyOpen
  split
  · rw [memI_cons, memI_nil, Bool.or_false, Atomic.mem_iff]
  · rename_i hne
    rw [memI_nil]
    simp only [Bool.false_eq_true, false_iff]
    rintro ⟨h1, h2⟩
    exact hne (Atomic.mem_nonempty
      (a := ⟨lo, true, hi, true⟩) (t := t) (Atomic.mem_iff.mpr ⟨h1, h2⟩))

lemma memI_req {s e t : Time} :
    memI (pyOpen (some s) (some e)) t = true ↔ s < t ∧ t < e := by
  rw [memI_pyOpen]
  simp [SatLo, SatHi]

/-! ### Membership under normalization and union -/

/-- If `t` has passed `a`'s upper bound and `b` touches `a`, then `t`
satisfies `b`'s lower bound. -/
lemma satLo_of_touches {a b : Atomic} (ht : touches a b = true) {t : Time}
    (hh : ¬ SatHi a.hi a.hiOpen t) : SatHi a.hi a.hiOpen t ∨ SatLo b.lo b.loOpen t := by
  obtain ⟨lo, lO, hi, hO⟩ := a
  obtain ⟨lo', lO', hi', hO'⟩ := b
  right
  cases hi
  · exact absurd satHi_none hh
  rename_i h
  cases lo'
  · exact satLo_none
  rename_i l
  cases hO <;> cases lO' <;> simp [touches, SatHi, SatLo] at ht hh ⊢ <;>
    first
      | linarith
      | (rcases ht with h1 | h1 <;> linarith)

lemma mergeA_loLeB {a b x : Atomic} : loLeB (mergeA a b) x = loLeB a x := by
  unfold mergeA
  split <;> rfl

lemma mem_mergeA {a b : Atomic} (hab : loLe a b) (ht : touches a b = true) {t : Time} :
    (mergeA a b).mem t = true ↔ (a.mem t = true ∨ b.mem t = true) := by
  unfold mergeA
  split
  · rename_i hle
    rw [Atomic.mem_iff, Atomic.mem_iff, Atomic.mem_iff]
    constructor
    · rintro ⟨h1, h2⟩
      by_cases hh : SatHi a.hi a.hiOpen t
      · exact Or.inl ⟨h1, hh⟩
      · rcases satLo_of_touches ht hh with hc | hc
        · exact absurd hc hh
        · exact Or.inr ⟨hc, h2⟩
    · rintro (⟨h1, h2⟩ | ⟨h1, h2⟩)
      · exact ⟨h1, satHi_mono hle h2⟩
      · exact ⟨satLo_mono hab h1, h2⟩
  · rename_i hle
    constructor
    · exact Or.inl
    · rintro (h | h)
      · exact h
      · rw [Atomic.mem_iff] at h ⊢
        exact ⟨satLo_mono hab h.1,
          satHi_mono (hiLeB_total (Bool.eq_false_iff.mpr hle)) h.2⟩

lemma mem_fuseAux {t : Time} :
    ∀ {l : List Atomic} {a : Atomic}, (a :: l).Sorted loLe →
      (memI (fuseAux a l) t = true ↔ memI (a :: l) t = true) := by
  intro l
  induction l with
  | nil => exact fun _ => Iff.rfl
  | cons b rest ih =>
    intro a hs
    obtain ⟨hrel, hs2⟩ := List.sorted_cons.mp hs
    have hab : loLe a b := hrel b (by simp)
    rw [fuseAux]
    by_cases htouch : touches a b = true
    · rw [if_pos htouch]
      have hsorted2 : (mergeA a b :: rest).Sorted loLe := by
        rw [List.sorted_cons]
        refine ⟨fun x hx => ?_, (List.sorted_cons.mp hs2).2⟩
        show loLeB _ _ = true
        rw [mergeA_loLeB]
        exact hrel x (List.mem_cons_of_mem b hx)
      rw [ih hsorted2, memI_cons, memI_cons, memI_cons]
      simp only [Bool.or_eq_true]
      rw [mem_mergeA hab htouch, or_assoc]
    · rw [if_neg htouch, memI_cons, memI_cons]
      simp only [Bool.or_eq_true]
      rw [ih hs2, memI_cons, Bool.or_eq_true]

lemma mem_fuse {t : Time} :
    ∀ {l : List Atomic}, l.Sorted loLe →
      (memI (fuse l) t = true ↔ memI l t = true) := by
  intro l hs
  cases l with
  | nil => exact Iff.rfl
  | cons a rest => exact mem_fuseAux hs

lemma memI_perm {l l' : PInterval} (h : l.Perm l') {t : Time} :
    memI l t = true ↔ memI l' t = true := by
  rw [memI_iff, memI_iff]
  constructor <;> rintro ⟨a, ha, hm⟩
  · exact ⟨a, h.mem_iff.mp ha, hm⟩
  · exact ⟨a, h.mem_iff.mpr ha, hm⟩

lemma memI_filter_nonempty {l : PInterval} {t : Time} :
    memI (l.filter Atomic.nonempty) t = true ↔ memI l t = true := by
  rw [memI_iff, memI_iff]
  constructor <;> rintro ⟨a, ha, hm⟩
  · exact ⟨a, (List.mem_filter.mp ha).1, hm⟩
  · exact ⟨a, List.mem_filter.mpr ⟨ha, Atomic.mem_nonempty hm⟩, hm⟩

lemma memI_normalize {l : PInterval} {t : Time} :
    memI (normalize l) t = true ↔ memI l t = true := by
  unfold normalize
  rw [mem_fuse (List.sorted_insertionSort loLe _),
    memI_perm (List.perm_insertionSort loLe _)]
  exact memI_filter_nonempty

lemma memI_union {A B : PInterval} {t : Time} :
    memI (union A B) t = true ↔ (memI A t = true ∨ memI B t = true) := by
  unfold union
  rw [memI_normalize, memI_iff, memI_iff, memI_iff]
  constructor
  · rintro ⟨a, ha, hm⟩
    rcases List.mem_append.mp ha with h | h
    · exact Or.inl ⟨a, h, hm⟩
    · exact Or.inr ⟨a, h, hm⟩
  · rintro (⟨a, ha, hm⟩ | ⟨a, ha, hm⟩)
    · exact ⟨a, List.mem_append_left _ ha, hm⟩
    · exact ⟨a, List.mem_append_right _ ha, hm⟩

lemma memI_foldl_union {t : Time} (l : List (PInterval × List DataPoint))
    (init : PInterval) :
    memI (l.foldl (fun acc q => union acc q.1) init) t = true ↔
      (memI init t = true ∨ ∃ q ∈ l, memI q.1 t = true) := by
  induction l generalizing init with
  | nil => simp
  | cons q l ih =>
    rw [List.foldl_cons, ih, memI_union]
    constructor
    · rintro ((h | h) | ⟨p, hp, hm⟩)
      · exact Or.inl h
      · exact Or.inr ⟨q, by simp, h⟩
      · exact Or.inr ⟨p, List.mem_cons_of_mem q hp, hm⟩
    · rintro (h | ⟨p, hp, hm⟩)
      · exact Or.inl (Or.inl h)
      · rcases List.mem_cons.mp hp with rfl | hp
        · exact Or.inl (Or.inr hm)
        · exact Or.inr ⟨p, hp, hm⟩

/-- A timestamp is in `_history_available_interval` exactly when some
cache binding's key interval contains it. -/
lemma memI_avail {h : Hist} {t : Time} :
    memI (history_available_interval h) t = true ↔ ∃ p ∈ h, memI p.1 t = true := by
  unfold history_available_interval
  cases h with
  | nil => simp [memI_nil]
  | cons p rest =>
    rw [memI_foldl_union]
    constructor
    · rintro (h | ⟨q, hq, hm⟩)
      · exact ⟨p, by simp, h⟩
      · exact ⟨q, List.mem_cons_of_mem p hq, hm⟩
    · rintro ⟨q, hq, hm⟩
      rcases List.mem_cons.mp hq with rfl | hq
      · exact Or.inl hm
      · exact Or.inr ⟨q, hq, hm⟩

/-! ### The missing-interval computation, semantically -/

/-- A timestamp is missing exactly when it lies strictly inside the
query range and is not covered by any cached interval. -/
lemma memI_missing {h : Hist} {s e t : Time} :
    memI (get_missing_intervals h s e) t = true ↔
      s < t ∧ t < e ∧ memI (history_available_interval h) t = false := by
  unfold get_missing_intervals get_available_interval
  rw [memI_inter, memI_complement, memI_inter, memI_req]
  constructor
  · rintro ⟨hni, h1, h2⟩
    refine ⟨h1, h2, ?_⟩
    rw [Bool.eq_false_iff]
    intro hav
    exact hni ⟨hav, h1, h2⟩
  · rintro ⟨h1, h2, hn⟩
    exact ⟨fun hc => by rw [hn] at hc; exact Bool.false_ne_true hc.1, h1, h2⟩

lemma inter_nil {A : PInterval} : inter A [] = [] := by
  simp [inter]

/-- Every atomic interval produced by `inter` passed the nonemptiness
check. -/
lemma inter_all_nonempty {A B : PInterval} :
    ∀ a ∈ inter A B, a.nonempty = true := by
  intro c hc
  simp only [inter, List.mem_flatMap, List.mem_filterMap] at hc
  obtain ⟨a, _, b, _, hab⟩ := hc
  unfold atomicInter at hab
  split at hab
  · cases Option.some.inj hab
    assumption
  · cases hab

/-! ### Degenerate query ranges -/

lemma pyOpen_degenerate {s e : Time} (hse : e ≤ s) :
    pyOpen (some s) (some e) = [] := by
  unfold pyOpen
  rw [if_neg]
  simp only [Atomic.nonempty, Bool.not_true, Bool.and_false, Bool.false_and,
    Bool.or_false]
  simp only [decide_eq_true_eq]
  exact not_lt.mpr hse

/-- With `start ≥ end`, the requested interval is empty, nothing is
missing, nothing is fetched and nothing is returned; the call raises
no error and leaves the mapping unchanged. -/
lemma degenerate_get_history {node : Node} {fuel : Nat} {h : Hist} {s e : Time}
    (hse : e ≤ s) :
    get_history node fuel h s e = some ⟨h, false, [], 0⟩ := by
  have hreq := pyOpen_degenerate hse
  have hmiss : get_missing_intervals h s e = [] := by
    unfold get_missing_intervals
    rw [hreq, inter_nil]
  have hdvs : dvs_from_cache h s e = [] := by
    unfold dvs_from_cache
    rw [hreq]
    simp [inter_nil]
  unfold get_history
  rw [hmiss, if_pos rfl, hdvs]

/-! ### Full coverage means nothing is missing -/

/-- If every timestamp strictly inside `(s, e)` is covered by the
cache, the missing-interval computation returns the empty interval. -/
lemma missing_nil_of_covered {h : Hist} {s e : Time}
    (hcov : ∀ t : Time, s < t → t < e → memI (history_available_interval h) t = true) :
    get_missing_intervals h s e = [] := by
  rw [List.eq_nil_iff_forall_not_mem]
  intro a ha
  have hne : a.nonempty = true := inter_all_nonempty a ha
  obtain ⟨t, hm⟩ := Atomic.nonempty_exists_mem hne
  have hmem : memI (get_missing_intervals h s e) t = true := memI_iff.mpr ⟨a, ha, hm⟩
  rw [memI_missing] at hmem
  obtain ⟨h1, h2, h3⟩ := hmem
  rw [hcov t h1 h2] at h3
  exact Bool.noConfusion h3

/-! ### Termination of the gap-fetch loop -/

/-- One unfolding step of the `while` loop of
`node_read_full_history`. -/
lemma nrfh_succ (node : Node) (fuel : Nat) (s e : Time) :
    node_read_full_history node (fuel + 1) s e =
      match node s e with
      | .error er => some (.error er, 1)
      | .ok vals =>
        match vals.getLast? with
        | none => some (.ok vals, 1)
        | some lastv =>
          if s = lastv.sourceTimestamp then some (.ok vals, 1)
          else if e < s then some (.ok vals, 1)
          else
            match node_read_full_history node fuel lastv.sourceTimestamp e with
            | none => none
            | some (.error er, n) => some (.error er, n + 1)
            | some (.ok rest, n) => some (.ok (vals ++ rest), n + 1) := by
  rw [node_read_full_history]

/-- Once the cursor has passed the requested upper bound, the next
loop iteration always stops, whatever the source answers. -/
lemma nrfh_overshoot_stops {node : Node} {s e : Time} (hse : e < s) :
    ∃ res, node_read_full_history node 1 s e = some res := by
  rw [show (1 : Nat) = 0 + 1 from rfl, nrfh_succ]
  cases hn : node s e with
  | error er => exact ⟨_, rfl⟩
  | ok vals =>
    dsimp only
    cases hl : vals.getLast? with
    | none => exact ⟨_, rfl⟩
    | some lastv =>
      dsimp only
      by_cases hs : s = lastv.sourceTimestamp
      · rw [if_pos hs]
        exact ⟨_, rfl⟩
      · rw [if_neg hs, if_pos hse]
        exact ⟨_, rfl⟩

/-- Termination case (a): the requested page comes back empty. -/
lemma nrfh_empty_page {node : Node} {s e : Time} (hn : node s e = .ok []) :
    node_read_full_history node 1 s e = some (.ok [], 1) := by
  rw [show (1 : Nat) = 0 + 1 from rfl, nrfh_succ, hn]
  rfl

/-- Termination case (b): the page's last timestamp equals the cursor
passed as the page's start. -/
lemma nrfh_repeat_cursor {node : Node} {s e : Time} {vals : List DataPoint}
    {p : DataPoint} (hn : node s e = .ok vals) (hl : vals.getLast? = some p)
    (hp : p.sourceTimestamp = s) :
    node_read_full_history node 1 s e = some (.ok vals, 1) := by
  rw [show (1 : Nat) = 0 + 1 from rfl, nrfh_succ, hn]
  dsimp only
  rw [hl]
  dsimp only
  rw [if_pos hp.symm]

/-- Termination case (c): the page's last timestamp exceeds the
requested upper bound, so the cursor overshoots; at most one more
page request happens and then the loop stops. -/
lemma nrfh_overshoot {node : Node} {s e : Time} {vals : List DataPoint}
    {p : DataPoint} (hn : node s e = .ok vals) (hl : vals.getLast? = some p)
    (hp : e < p.sourceTimestamp) :
    ∃ res, node_read_full_history node 2 s e = some res := by
  rw [show (2 : Nat) = 1 + 1 from rfl, nrfh_succ, hn]
  dsimp only
  rw [hl]
  dsimp only
  by_cases hs : s = p.sourceTimestamp
  · rw [if_pos hs]
    exact ⟨_, rfl⟩
  · rw [if_neg hs]
    by_cases hse : e < s
    · rw [if_pos hse]
      exact ⟨_, rfl⟩
    · rw [if_neg hse]
      obtain ⟨res, hres⟩ :=
        @nrfh_overshoot_stops node p.sourceTimestamp e hp
      rw [hres]
      rcases res with ⟨er | l, n⟩
      · exact ⟨_, rfl⟩
      · exact ⟨_, rfl⟩

/-! ### The store update -/

lemma histSet_mem_self (h : Hist) (k : PInterval) (v : List DataPoint) :
    (k, v) ∈ histSet h k v := by
  unfold histSet
  split
  · rename_i hany
    rw [List.any_eq_true] at hany
    obtain ⟨p, hp, hpk⟩ := hany
    rw [List.mem_map]
    refine ⟨p, hp, ?_⟩
    rw [if_pos (of_decide_eq_true hpk)]
  · exact List.mem_append_right _ (by simp)

lemma histSet_subset {h : Hist} {k : PInterval} {v : List DataPoint} {p}
    (hp : p ∈ histSet h k v) : p ∈ h ∨ p.1 = k := by
  unfold histSet at hp
  split at hp
  · rw [List.mem_map] at hp
    obtain ⟨q, hq, hqe⟩ := hp
    by_cases hqk : q.1 = k
    · rw [if_pos hqk] at hqe
      right
      rw [← hqe]
    · rw [if_neg hqk] at hqe
      left
      rw [← hqe]
      exact hq
  · rcases List.mem_append.mp hp with h1 | h1
    · exact Or.inl h1
    · right
      rw [List.mem_singleton] at h1
      rw [h1]

lemma histSet_keys_mono {h : Hist} {k : PInterval} {v : List DataPoint}
    {k' : PInterval} (hx : ∃ w, (k', w) ∈ h) :
    ∃ w, (k', w) ∈ histSet h k v := by
  obtain ⟨w, hw⟩ := hx
  unfold histSet
  split
  · by_cases hkk : k' = k
    · subst hkk
      exact ⟨v, List.mem_map.mpr ⟨(k', w), hw, by rw [if_pos rfl]⟩⟩
    · exact ⟨w, List.mem_map.mpr ⟨(k', w), hw, by rw [if_neg hkk]⟩⟩
  · exact ⟨w, List.mem_append_left _ hw⟩

/-! ### Structure of `_populate_cache` runs -/

lemma populate_nil {node : Node} {fuel : Nat} {h : Hist} :
    populate_cache node fuel h [] = some (h, false, 0) := by
  rw [populate_cache]

lemma populate_cons {node : Node} {fuel : Nat} {h : Hist} {a : Atomic}
    {rest : List Atomic} :
    populate_cache node fuel h (a :: rest) =
      match node_read_full_history node fuel (a.lo.getD 0) (a.hi.getD 0) with
      | none => none
      | some (.error _, n) => some (h, true, n)
      | some (.ok dvs, n) =>
        match populate_cache node fuel (histSet h (pyOpen a.lo a.hi) dvs) rest with
        | none => none
        | some (h2, er, m) => some (h2, er, n + m) := by
  rw [populate_cache]

/-- Keys already present survive any `_populate_cache` run. -/
lemma populate_keys_mono {node : Node} {fuel : Nat} :
    ∀ {atoms : List Atomic} {h h2 : Hist} {er : Bool} {n : Nat},
      populate_cache node fuel h atoms = some (h2, er, n) →
      ∀ k : PInterval, (∃ w, (k, w) ∈ h) → ∃ w, (k, w) ∈ h2 := by
  intro atoms
  induction atoms with
  | nil =>
    intro h h2 er n hp k hk
    rw [populate_nil] at hp
    simp only [Option.some.injEq, Prod.mk.injEq] at hp
    obtain ⟨rfl, -, -⟩ := hp
    exact hk
  | cons a rest ih =>
    intro h h2 er n hp k hk
    rw [populate_cons] at hp
    cases hn : node_read_full_history node fuel (a.lo.getD 0) (a.hi.getD 0) with
    | none => rw [hn] at hp; cases hp
    | some pr =>
      rw [hn] at hp
      rcases pr with ⟨er' | dvs, m⟩
      · dsimp only at hp
        simp only [Option.some.injEq, Prod.mk.injEq] at hp
        obtain ⟨rfl, -, -⟩ := hp
        exact hk
      · dsimp only at hp
        cases hp2 : populate_cache node fuel (histSet h (pyOpen a.lo a.hi) dvs) rest with
        | none => rw [hp2] at hp; cases hp
        | some tr =>
          rw [hp2] at hp
          rcases tr with ⟨h3, er3, n3⟩
          dsimp only at hp
          simp only [Option.some.injEq, Prod.mk.injEq] at hp
          obtain ⟨rfl, -, -⟩ := hp
          exact ih hp2 k (histSet_keys_mono hk)

/-- A `_populate_cache` run that propagates an exception decomposes
into a successfully inserted prefix of gaps, then the failing gap,
whose page results are not committed. -/
lemma populate_error_decomp {node : Node} {fuel : Nat} :
    ∀ {atoms : List Atomic} {h h2 : Hist} {n : Nat},
      populate_cache node fuel h atoms = some (h2, true, n) →
      ∃ pre a post m k,
        atoms = pre ++ a :: post ∧
        node_read_full_history node fuel (a.lo.getD 0) (a.hi.getD 0) =
          some (.error (), k) ∧
        populate_cache node fuel h pre = some (h2, false, m) ∧
        n = m + k := by
  intro atoms
  induction atoms with
  | nil =>
    intro h h2 n hp
    rw [populate_nil] at hp
    simp at hp
  | cons a rest ih =>
    intro h h2 n hp
    rw [populate_cons] at hp
    cases hn : node_read_full_history node fuel (a.lo.getD 0) (a.hi.getD 0) with
    | none => rw [hn] at hp; cases hp
    | some pr =>
      rw [hn] at hp
      rcases pr with ⟨er' | dvs, m⟩
      · cases er'
        dsimp only at hp
        simp only [Option.some.injEq, Prod.mk.injEq] at hp
        obtain ⟨rfl, -, rfl⟩ := hp
        exact ⟨[], a, rest, 0, m, rfl, hn, populate_nil, (Nat.zero_add m).symm⟩
      · dsimp only at hp
        cases hp2 : populate_cache node fuel (histSet h (pyOpen a.lo a.hi) dvs) rest with
        | none => rw [hp2] at hp; cases hp
        | some tr =>
          rw [hp2] at hp
          rcases tr with ⟨h3, er3, n3⟩
          dsimp only at hp
          simp only [Option.some.injEq, Prod.mk.injEq] at hp
          obtain ⟨rfl, her, rfl⟩ := hp
          rw [her] at hp2
          obtain ⟨pre, b, post, m', k, hrest, hb, hpre, hsum⟩ := ih hp2
          refine ⟨a :: pre, b, post, m + m', k,
            by rw [hrest, List.cons_append], hb, ?_, by omega⟩
          rw [populate_cons, hn]
          dsimp only
          rw [hpre]

/-- Every binding after a `_populate_cache` run either was already in
the store or is keyed by the open span of one of the processed
gaps. -/
lemma populate_src {node : Node} {fuel : Nat} :
    ∀ {atoms : List Atomic} {h h2 : Hist} {er : Bool} {n : Nat},
      populate_cache node fuel h atoms = some (h2, er, n) →
      ∀ p ∈ h2, p ∈ h ∨ ∃ a ∈ atoms, p.1 = pyOpen a.lo a.hi := by
  intro atoms
  induction atoms with
  | nil =>
    intro h h2 er n hp p hmem
    rw [populate_nil] at hp
    simp only [Option.some.injEq, Prod.mk.injEq] at hp
    obtain ⟨rfl, -, -⟩ := hp
    exact Or.inl hmem
  | cons a rest ih =>
    intro h h2 er n hp p hmem
    rw [populate_cons] at hp
    cases hn : node_read_full_history node fuel (a.lo.getD 0) (a.hi.getD 0) with
    | none => rw [hn] at hp; cases hp
    | some pr =>
      rw [hn] at hp
      rcases pr with ⟨er' | dvs, m⟩
      · dsimp only at hp
        simp only [Option.some.injEq, Prod.mk.injEq] at hp
        obtain ⟨rfl, -, -⟩ := hp
        exact Or.inl hmem
      · dsimp only at hp
        cases hp2 : populate_cache node fuel (histSet h (pyOpen a.lo a.hi) dvs) rest with
        | none => rw [hp2] at hp; cases hp
        | some tr =>
          rw [hp2] at hp
          rcases tr with ⟨h3, er3, n3⟩
          dsimp only at hp
          simp only [Option.some.injEq, Prod.mk.injEq] at hp
          obtain ⟨rfl, -, -⟩ := hp
          rcases ih hp2 p hmem with hsrc | ⟨b, hb, hkey⟩
          · rcases histSet_subset hsrc with h1 | h1
            · exact Or.inl h1
            · exact Or.inr ⟨a, List.mem_cons_self a rest, h1⟩
          · exact Or.inr ⟨b, List.mem_cons_of_mem a hb, hkey⟩

/-- A successful `_populate_cache` run inserts a binding for every
processed gap (keyed by its open span). -/
lemma populate_inserted {node : Node} {fuel : Nat} :
    ∀ {atoms : List Atomic} {h h2 : Hist} {n : Nat},
      populate_cache node fuel h atoms = some (h2, false, n) →
      ∀ a ∈ atoms, ∃ w, (pyOpen a.lo a.hi, w) ∈ h2 := by
  intro atoms
  induction atoms with
  | nil =>
    intro h h2 n _ a ha
    cases ha
  | cons a rest ih =>
    intro h h2 n hp b hb
    rw [populate_cons] at hp
    cases hn : node_read_full_history node fuel (a.lo.getD 0) (a.hi.getD 0) with
    | none => rw [hn] at hp; cases hp
    | some pr =>
      rw [hn] at hp
      rcases pr with ⟨er' | dvs, m⟩
      · dsimp only at hp
        simp at hp
      · dsimp only at hp
        cases hp2 : populate_cache node fuel (histSet h (pyOpen a.lo a.hi) dvs) rest with
        | none => rw [hp2] at hp; cases hp
        | some tr =>
          rw [hp2] at hp
          rcases tr with ⟨h3, er3, n3⟩
          dsimp only at hp
          simp only [Option.some.injEq, Prod.mk.injEq] at hp
          obtain ⟨rfl, her, -⟩ := hp
          rw [her] at hp2
          rcases List.mem_cons.mp hb with rfl | hb
          · exact populate_keys_mono hp2 _ ⟨dvs, histSet_mem_self h _ dvs⟩
          · exact ih hp2 b hb

/-! ### Case analysis of one `get_history` call -/

lemma get_history_raised {node : Node} {fuel : Nat} {h : Hist} {s e : Time}
    {r : QueryResult} (hr : get_history node fuel h s e = some r)
    (hraised : r.raised = true) :
    r.points = [] ∧
      populate_cache node fuel h (get_missing_intervals h s e) =
        some (r.hist, true, r.fetches) := by
  unfold get_history at hr
  split at hr
  · simp only [Option.some.injEq] at hr
    rw [← hr] at hraised
    cases hraised
  · cases hp : populate_cache node fuel h (get_missing_intervals h s e) with
    | none => rw [hp] at hr; cases hr
    | some tr =>
      rw [hp] at hr
      rcases tr with ⟨h2, er, n⟩
      cases er
      · dsimp only at hr
        simp only [Option.some.injEq] at hr
        rw [← hr] at hraised
        cases hraised
      · dsimp only at hr
        simp only [Option.some.injEq] at hr
        subst hr
        exact ⟨rfl, rfl⟩

lemma get_history_ok {node : Node} {fuel : Nat} {h : Hist} {s e : Time}
    {r : QueryResult} (hr : get_history node fuel h s e = some r)
    (hok : r.raised = false) :
    r.points = dvs_from_cache r.hist s e ∧
    ((get_missing_intervals h s e = [] ∧ r.hist = h ∧ r.fetches = 0) ∨
      populate_cache node fuel h (get_missing_intervals h s e) =
        some (r.hist, false, r.fetches)) := by
  unfold get_history at hr
  split at hr
  · rename_i hmiss
    simp only [Option.some.injEq] at hr
    subst hr
    exact ⟨rfl, Or.inl ⟨hmiss, rfl, rfl⟩⟩
  · cases hp : populate_cache node fuel h (get_missing_intervals h s e) with
    | none => rw [hp] at hr; cases hr
    | some tr =>
      rw [hp] at hr
      rcases tr with ⟨h2, er, n⟩
      cases er
      · dsimp only at hr
        simp only [Option.some.injEq] at hr
        subst hr
        exact ⟨rfl, Or.inr rfl⟩
      · dsimp only at hr
        simp only [Option.some.injEq] at hr
        rw [← hr] at hok
        cases hok

/-! ### Entry well-formedness (C7 machinery) -/

lemma mem_of_getLast?_eq {α : Type} {l : List α} {p : α}
    (h : l.getLast? = some p) : p ∈ l := by
  obtain ⟨hne, heq⟩ := List.mem_getLast?_eq_getLast (by rw [Option.mem_def]; exact h)
  rw [heq]
  exact List.getLast_mem hne

lemma sorted_le_getLast {l : List DataPoint} {p : DataPoint}
    (hs : List.Sorted tsLe l) (hl : l.getLast? = some p) :
    ∀ x ∈ l, x.sourceTimestamp ≤ p.sourceTimestamp := by
  induction l with
  | nil => cases hl
  | cons a rest ih =>
    intro x hx
    cases rest with
    | nil =>
      rw [List.getLast?_singleton] at hl
      cases Option.some.inj hl
      rcases List.mem_singleton.mp hx with rfl
      exact le_refl _
    | cons b rest2 =>
      rw [List.getLast?_cons_cons] at hl
      obtain ⟨hab, hs2⟩ := List.sorted_cons.mp hs
      rcases List.mem_cons.mp hx with rfl | hx2
      · exact hab p (mem_of_getLast?_eq hl)
      · exact ih hs2 hl x hx2

/-- Against a contract-honoring source, the gap fetch returns a
non-strictly ascending sequence of points in the requested closed
range. -/
lemma nrfh_good {node : Node} (hgood : GoodNode node) :
    ∀ {fuel : Nat} {s e : Time} {l : List DataPoint} {n : Nat},
      node_read_full_history node fuel s e = some (.ok l, n) →
      List.Sorted tsLe l ∧ ∀ x ∈ l, s ≤ x.sourceTimestamp ∧ x.sourceTimestamp ≤ e := by
  intro fuel
  induction fuel with
  | zero =>
    intro s e l n h
    cases h
  | succ fuel ih =>
    intro s e l n h
    rw [nrfh_succ] at h
    cases hn : node s e with
    | error er =>
      rw [hn] at h
      dsimp only at h
      simp at h
    | ok vals =>
      rw [hn] at h
      dsimp only at h
      obtain ⟨hvs, hvb⟩ := hgood s e vals hn
      cases hl : vals.getLast? with
      | none =>
        rw [hl] at h
        dsimp only at h
        simp only [Option.some.injEq, Prod.mk.injEq, Except.ok.injEq] at h
        obtain ⟨rfl, -⟩ := h
        exact ⟨hvs, hvb⟩
      | some lastv =>
        rw [hl] at h
        dsimp only at h
        by_cases hs : s = lastv.sourceTimestamp
        · rw [if_pos hs] at h
          simp only [Option.some.injEq, Prod.mk.injEq, Except.ok.injEq] at h
          obtain ⟨rfl, -⟩ := h
          exact ⟨hvs, hvb⟩
        · rw [if_neg hs] at h
          by_cases hse : e < s
          · rw [if_pos hse] at h
            simp only [Option.some.injEq, Prod.mk.injEq, Except.ok.injEq] at h
            obtain ⟨rfl, -⟩ := h
            exact ⟨hvs, hvb⟩
          · rw [if_neg hse] at h
            cases hrec : node_read_full_history node fuel lastv.sourceTimestamp e with
            | none => rw [hrec] at h; cases h
            | some pr =>
              rw [hrec] at h
              rcases pr with ⟨er | rest, m⟩
              · dsimp only at h
                simp at h
              · dsimp only at h
                simp only [Option.some.injEq, Prod.mk.injEq, Except.ok.injEq] at h
                obtain ⟨rfl, -⟩ := h
                obtain ⟨hrs, hrb⟩ := ih hrec
                obtain ⟨hcs, hce⟩ := hvb lastv (mem_of_getLast?_eq hl)
                constructor
                · rw [List.Sorted, List.pairwise_append]
                  refine ⟨hvs, hrs, fun x hx y hy => ?_⟩
                  show x.sourceTimestamp ≤ y.sourceTimestamp
                  exact le_trans (sorted_le_getLast hvs hl x hx) (hrb y hy).1
                · intro x hx
                  rcases List.mem_append.mp hx with hx | hx
                  · exact hvb x hx
                  · exact ⟨le_trans hcs (hrb x hx).1, (hrb x hx).2⟩

/-- Variant of `histSet_subset` remembering the inserted value. -/
lemma histSet_subset' {h : Hist} {k : PInterval} {v : List DataPoint} {p}
    (hp : p ∈ histSet h k v) : p ∈ h ∨ p = (k, v) := by
  unfold histSet at hp
  split at hp
  · rw [List.mem_map] at hp
    obtain ⟨q, hq, hqe⟩ := hp
    by_cases hqk : q.1 = k
    · rw [if_pos hqk] at hqe
      right
      rw [← hqe]
    · rw [if_neg hqk] at hqe
      left
      rw [← hqe]
      exact hq
  · rcases List.mem_append.mp hp with h1 | h1
    · exact Or.inl h1
    · exact Or.inr (List.mem_singleton.mp h1)

/-- The binding inserted for one gap is well-formed: its points are
ascending and lie within the closed bounds of its key. -/
lemma entryGood_of_fetch {node : Node} (hgood : GoodNode node) {fuel : Nat}
    {a : Atomic} {dvs : List DataPoint} {n : Nat}
    (h : node_read_full_history node fuel (a.lo.getD 0) (a.hi.getD 0) =
      some (.ok dvs, n)) :
    EntryGood (pyOpen a.lo a.hi, dvs) := by
  obtain ⟨hsorted, hbounds⟩ := nrfh_good hgood h
  refine ⟨hsorted, fun at_ hat x hx => ?_⟩
  obtain ⟨h1, h2⟩ := hbounds x hx
  unfold pyOpen at hat
  split at hat
  · rcases List.mem_singleton.mp hat with rfl
    constructor
    · cases hlo : a.lo with
      | none => exact satLo_none
      | some lv =>
        rw [hlo] at h1
        exact h1
    · cases hhi : a.hi with
      | none => exact satHi_none
      | some hv =>
        rw [hhi] at h2
        exact h2
  · cases hat

/-- `_populate_cache` preserves entry well-formedness. -/
lemma populate_entries_good {node : Node} (hgood : GoodNode node) {fuel : Nat} :
    ∀ {atoms : List Atomic} {h h2 : Hist} {er : Bool} {n : Nat},
      populate_cache node fuel h atoms = some (h2, er, n) →
      (∀ p ∈ h, EntryGood p) → ∀ p ∈ h2, EntryGood p := by
  intro atoms
  induction atoms with
  | nil =>
    intro h h2 er n hp hh p hmem
    rw [populate_nil] at hp
    simp only [Option.some.injEq, Prod.mk.injEq] at hp
    obtain ⟨rfl, -, -⟩ := hp
    exact hh p hmem
  | cons a rest ih =>
    intro h h2 er n hp hh p hmem
    rw [populate_cons] at hp
    cases hn : node_read_full_history node fuel (a.lo.getD 0) (a.hi.getD 0) with
    | none => rw [hn] at hp; cases hp
    | some pr =>
      rw [hn] at hp
      rcases pr with ⟨er' | dvs, m⟩
      · dsimp only at hp
        simp only [Option.some.injEq, Prod.mk.injEq] at hp
        obtain ⟨rfl, -, -⟩ := hp
        exact hh p hmem
      · dsimp only at hp
        cases hp2 : populate_cache node fuel (histSet h (pyOpen a.lo a.hi) dvs) rest with
        | none => rw [hp2] at hp; cases hp
        | some tr =>
          rw [hp2] at hp
          rcases tr with ⟨h3, er3, n3⟩
          dsimp only at hp
          simp only [Option.some.injEq, Prod.mk.injEq] at hp
          obtain ⟨rfl, -, -⟩ := hp
          refine ih hp2 (fun q hq => ?_) p hmem
          rcases histSet_subset' hq with hq1 | rfl
          · exact hh q hq1
          · exact entryGood_of_fetch hgood hn

/-- One `get_history` call preserves entry well-formedness. -/
lemma get_history_entries_good {node : Node} (hgood : GoodNode node)
    {fuel : Nat} {h : Hist} {s e : Time} {r : QueryResult}
    (hr : get_history node fuel h s e = some r)
    (hh : ∀ p ∈ h, EntryGood p) : ∀ p ∈ r.hist, EntryGood p := by
  cases hraised : r.raised with
  | true =>
    obtain ⟨-, hp⟩ := get_history_raised hr hraised
    exact populate_entries_good hgood hp hh
  | false =>
    obtain ⟨-, hcase⟩ := get_history_ok hr hraised
    rcases hcase with ⟨-, rfl, -⟩ | hp
    · exact hh
    · exact populate_entries_good hgood hp hh

/-- Any sequence of calls from any well-formed store keeps entries
well-formed. -/
lemma run_queries_entries_good {node : Node} (hgood : GoodNode node) {fuel : Nat} :
    ∀ {qs : List (Time × Time)} {h h2 : Hist},
      run_queries node fuel h qs = some h2 →
      (∀ p ∈ h, EntryGood p) → ∀ p ∈ h2, EntryGood p := by
  intro qs
  induction qs with
  | nil =>
    intro h h2 hrun hh
    rw [run_queries] at hrun
    cases Option.some.inj hrun
    exact hh
  | cons q qs ih =>
    intro h h2 hrun hh
    rcases q with ⟨s, e⟩
    rw [run_queries] at hrun
    cases hg : get_history node fuel h s e with
    | none => rw [hg] at hrun; cases hrun
    | some r =>
      rw [hg] at hrun
      exact ih hrun (get_history_entries_good hgood hg hh)

lemma goodNode_nodeData : GoodNode nodeData := by
  intro s e vals h
  unfold nodeData at h
  cases Except.ok.inj h
  constructor
  · exact List.Sorted.filter _ (by decide)
  · intro p hp
    rw [List.mem_filter, Bool.and_eq_true] at hp
    exact ⟨of_decide_eq_true hp.2.1, of_decide_eq_true hp.2.2⟩

/-! ### Bounds of the read path (C2 machinery) -/

lemma tightLo_some_right {a b : Atomic} {s : Time} (hb : b.lo = some s) :
    ∃ l, (tightLo a b).1 = some l ∧ s ≤ l := by
  unfold tightLo
  rw [hb]
  cases ha : a.lo with
  | none => exact ⟨s, rfl, le_refl s⟩
  | some x =>
    dsimp only
    rcases lt_trichotomy x s with hc | hc | hc
    · rw [if_pos hc]
      exact ⟨s, rfl, le_refl s⟩
    · subst hc
      rw [if_neg (lt_irrefl x), if_neg (lt_irrefl x)]
      exact ⟨x, rfl, le_refl x⟩
    · rw [if_neg (not_lt.mpr hc.le), if_pos hc]
      exact ⟨x, rfl, hc.le⟩

lemma tightHi_some_right {a b : Atomic} {e : Time} (hb : b.hi = some e) :
    ∃ u, (tightHi a b).1 = some u ∧ u ≤ e := by
  unfold tightHi
  rw [hb]
  cases ha : a.hi with
  | none => exact ⟨e, rfl, le_refl e⟩
  | some x =>
    dsimp only
    rcases lt_trichotomy x e with hc | hc | hc
    · rw [if_pos hc]
      exact ⟨x, rfl, hc.le⟩
    · subst hc
      rw [if_neg (lt_irrefl x), if_neg (lt_irrefl x)]
      exact ⟨x, rfl, le_refl x⟩
    · rw [if_neg (not_lt.mpr hc.le), if_pos hc]
      exact ⟨e, rfl, le_refl e⟩

/-- Every atomic piece of an intersection with the open query range
has finite bounds inside `[s, e]`. -/
lemma inter_req_bounds {A : PInterval} {s e : Time} {c : Atomic}
    (hc : c ∈ inter A (pyOpen (some s) (some e))) :
    ∃ l u, c.lo = some l ∧ c.hi = some u ∧ s ≤ l ∧ u ≤ e := by
  simp only [inter, List.mem_flatMap, List.mem_filterMap] at hc
  obtain ⟨a, -, b, hbmem, hab⟩ := hc
  have hb : b = Atomic.mk (some s) true (some e) true := by
    unfold pyOpen at hbmem
    split at hbmem
    · exact List.mem_singleton.mp hbmem
    · cases hbmem
  subst hb
  unfold atomicInter at hab
  split at hab
  · cases Option.some.inj hab
    obtain ⟨l, hl, hsl⟩ := tightLo_some_right (a := a)
      (b := Atomic.mk (some s) true (some e) true) rfl
    obtain ⟨u, hu, hue⟩ := tightHi_some_right (a := a)
      (b := Atomic.mk (some s) true (some e) true) rfl
    exact ⟨l, u, hl, hu, hsl, hue⟩
  · cases hab

lemma get_partial_dvs_mem {lo hi : Option Time} {dvs : List DataPoint}
    {x : DataPoint} (hx : x ∈ get_partial_dvs lo hi dvs) :
    x ∈ dvs ∧ (∀ l, lo = some l → l ≤ x.sourceTimestamp) ∧
      (∀ u, hi = some u → x.sourceTimestamp ≤ u) := by
  unfold get_partial_dvs at hx
  rw [List.mem_filter, Bool.and_eq_true] at hx
  obtain ⟨hmem, h1, h2⟩ := hx
  refine ⟨hmem, fun l hl => ?_, fun u hu => ?_⟩
  · rw [hl] at h1
    exact of_decide_eq_true h1
  · rw [hu] at h2
    exact of_decide_eq_true h2

/-- Everything the read path yields lies within `[start, stop]`,
inclusive, for any cache state. -/
lemma dvs_from_cache_bounded {h : Hist} {s e : Time} :
    ∀ x ∈ dvs_from_cache h s e, s ≤ x.sourceTimestamp ∧ x.sourceTimestamp ≤ e := by
  intro x hx
  unfold dvs_from_cache at hx
  rw [List.mem_flatMap] at hx
  obtain ⟨p, hp, hxp⟩ := hx
  split at hxp
  · cases hxp
  · rename_i hne
    obtain ⟨hmem, hlo, hhi⟩ := get_partial_dvs_mem hxp
    cases hhead : inter p.1 (pyOpen (some s) (some e)) with
    | nil => exact absurd hhead hne
    | cons c rest =>
      have hcmem : c ∈ inter p.1 (pyOpen (some s) (some e)) := by
        rw [hhead]
        exact List.mem_cons_self c rest
      obtain ⟨l, u, hl, hu, hsl, hue⟩ := inter_req_bounds hcmem
      cases hlast : (c :: rest).getLast? with
      | none => rw [List.getLast?_eq_none_iff] at hlast; cases hlast
      | some z =>
        have hzmem : z ∈ inter p.1 (pyOpen (some s) (some e)) := by
          rw [hhead]
          exact mem_of_getLast?_eq hlast
        obtain ⟨l2, u2, hl2, hu2, hsl2, hue2⟩ := inter_req_bounds hzmem
        constructor
        · have : iLower (inter p.1 (pyOpen (some s) (some e))) = some l := by
            rw [hhead]
            unfold iLower
            simp [hl]
          exact le_trans hsl (hlo l this)
        · have : iUpper (inter p.1 (pyOpen (some s) (some e))) = some u2 := by
            rw [hhead]
            unfold iUpper
            rw [hlast]
            simp [hu2]
          exact le_trans (hhi u2 this) hue2

/-- Concatenating per-entry sorted runs in entry order is sorted when
the runs are cross-ordered. -/
lemma sorted_flatMap {β : Type} (f : β → List DataPoint) :
    ∀ {l : List β}, (∀ p ∈ l, List.Sorted tsLe (f p)) →
      List.Pairwise (fun p q => ∀ x ∈ f p, ∀ y ∈ f q, tsLe x y) l →
      List.Sorted tsLe (l.flatMap f) := by
  intro l
  induction l with
  | nil => intro _ _; simp [List.Sorted]
  | cons a rest ih =>
    intro hs hp
    rw [List.flatMap_cons, List.Sorted, List.pairwise_append]
    obtain ⟨hcross, hp2⟩ := List.pairwise_cons.mp hp
    refine ⟨hs a (by simp), ih (fun p hp => hs p (List.mem_cons_of_mem a hp)) hp2,
      fun x hx y hy => ?_⟩
    rw [List.mem_flatMap] at hy
    obtain ⟨q, hq, hyq⟩ := hy
    exact hcross q hq x hx y hyq

lemma mem_read_entry_subset {p : PInterval × List DataPoint} {s e : Time}
    {x : DataPoint}
    (hx : x ∈ (if inter p.1 (pyOpen (some s) (some e)) = [] then []
      else get_partial_dvs (iLower (inter p.1 (pyOpen (some s) (some e))))
        (iUpper (inter p.1 (pyOpen (some s) (some e)))) p.2)) :
    x ∈ p.2 := by
  split at hx
  · cases hx
  · exact (get_partial_dvs_mem hx).1

/-! ### Disjointness of the cached spans (C8 machinery) -/

lemma pairwise_filterMap {α β : Type} {R : β → β → Prop} {S : α → α → Prop}
    {f : α → Option β}
    (hf : ∀ a b, S a b → ∀ x, f a = some x → ∀ y, f b = some y → R x y) :
    ∀ {l : List α}, List.Pairwise S l → List.Pairwise R (List.filterMap f l) := by
  intro l
  induction l with
  | nil => intro _; simp
  | cons a l ih =>
    intro hp
    obtain ⟨hhead, htail⟩ := List.pairwise_cons.mp hp
    rw [List.filterMap_cons]
    cases hfa : f a with
    | none => exact ih htail
    | some b =>
      rw [List.pairwise_cons]
      refine ⟨fun y hy => ?_, ih htail⟩
      rw [List.mem_filterMap] at hy
      obtain ⟨c, hc, hcy⟩ := hy
      exact hf a c (hhead c hc) b hfa y hcy

lemma pairwise_flatMap {α β : Type} {R : β → β → Prop} {f : α → List β} :
    ∀ {l : List α}, (∀ a ∈ l, List.Pairwise R (f a)) →
      List.Pairwise (fun a b => ∀ x ∈ f a, ∀ y ∈ f b, R x y) l →
      List.Pairwise R (l.flatMap f) := by
  intro l
  induction l with
  | nil => intro _ _; simp
  | cons a rest ih =>
    intro hin hp
    obtain ⟨hhead, htail⟩ := List.pairwise_cons.mp hp
    rw [List.flatMap_cons, List.pairwise_append]
    refine ⟨hin a (by simp), ih (fun p hp2 => hin p (List.mem_cons_of_mem a hp2)) htail,
      fun x hx y hy => ?_⟩
    rw [List.mem_flatMap] at hy
    obtain ⟨q, hq, hyq⟩ := hy
    exact hhead q hq x hx y hyq

lemma mem_of_atomicInter {a b c : Atomic} (hab : atomicInter a b = some c)
    {t : Time} (hm : c.mem t = true) : a.mem t = true ∧ b.mem t = true :=
  mem_atomicInter.mp ⟨c, hab, hm⟩

/-- Intersection preserves pairwise disjointness. -/
lemma inter_pdisj {A B : PInterval} (hA : List.Pairwise ADisj A)
    (hB : List.Pairwise ADisj B) : List.Pairwise ADisj (inter A B) := by
  unfold inter
  apply pairwise_flatMap
  · intro a _
    apply pairwise_filterMap (S := ADisj)
    · intro b1 b2 hd c1 hc1 c2 hc2 t ⟨hm1, hm2⟩
      exact hd t ⟨(mem_of_atomicInter hc1 hm1).2, (mem_of_atomicInter hc2 hm2).2⟩
    · exact hB
  · apply List.Pairwise.imp ?_ hA
    intro a1 a2 hd c1 hc1 c2 hc2 t ⟨hm1, hm2⟩
    rw [List.mem_filterMap] at hc1 hc2
    obtain ⟨b1, -, hb1⟩ := hc1
    obtain ⟨b2, -, hb2⟩ := hc2
    exact hd t ⟨(mem_of_atomicInter hb1 hm1).1, (mem_of_atomicInter hb2 hm2).1⟩

/-- The two complement rays of a nonempty atomic interval are
disjoint. -/
lemma atomicComplement_pdisj {a : Atomic} (hne : a.nonempty = true) :
    List.Pairwise ADisj (atomicComplement a) := by
  obtain ⟨lo, lO, hi, hO⟩ := a
  cases lo <;> cases hi <;>
    simp only [atomicComplement, List.nil_append, List.append_nil]
  · simp
  · exact List.pairwise_singleton _ _
  · exact List.pairwise_singleton _ _
  case some.some lv hv =>
    rw [show ([⟨none, true, some lv, !lO⟩] ++ [⟨some hv, !hO, none, true⟩] :
        List Atomic) = [⟨none, true, some lv, !lO⟩, ⟨some hv, !hO, none, true⟩]
      from rfl]
    refine List.pairwise_cons.mpr ⟨?_, List.pairwise_singleton _ _⟩
    intro b hb t ⟨hm1, hm2⟩
    rcases List.mem_singleton.mp hb with rfl
    rw [Atomic.mem_iff] at hm1 hm2
    have h1 : t ≤ lv := satHi_le hm1.2
    have h2 : hv ≤ t := satLo_le hm2.1
    simp only [Atomic.nonempty] at hne
    simp only [Bool.or_eq_true, Bool.and_eq_true, decide_eq_true_eq,
      Bool.not_eq_true'] at hne
    rcases hne with hlt | ⟨⟨heq, hlc⟩, hhc⟩
    · linarith
    · subst heq hlc hhc
      simp only [Bool.not_false, SatHi] at hm1
      simp only [Bool.not_false, SatLo] at hm2
      linarith [hm1.2, hm2.1]

/-- The complement of an interval whose atomic pieces are nonempty
has pairwise disjoint pieces. -/
lemma complement_pdisj {A : PInterval} (hA : ∀ a ∈ A, a.nonempty = true) :
    List.Pairwise ADisj (complement A) := by
  unfold complement
  have hgen : ∀ (l : List Atomic) (acc : PInterval),
      (∀ a ∈ l, a.nonempty = true) → List.Pairwise ADisj acc →
      List.Pairwise ADisj
        (l.foldl (fun acc a => inter acc (atomicComplement a)) acc) := by
    intro l
    induction l with
    | nil => intro acc _ hacc; exact hacc
    | cons a l ih =>
      intro acc hl hacc
      rw [List.foldl_cons]
      exact ih _ (fun b hb => hl b (List.mem_cons_of_mem a hb))
        (inter_pdisj hacc (atomicComplement_pdisj (hl a (by simp))))
  exact hgen A [fullAtomic] hA (List.pairwise_singleton _ _)

lemma pyOpen_pdisj {lo hi : Option Time} : List.Pairwise ADisj (pyOpen lo hi) := by
  unfold pyOpen
  split
  · exact List.pairwise_singleton _ _
  · simp

/-- The missing gaps of any query are pairwise disjoint. -/
lemma missing_pdisj {h : Hist} {s e : Time} :
    List.Pairwise ADisj (get_missing_intervals h s e) := by
  unfold get_missing_intervals
  exact inter_pdisj
    (complement_pdisj (fun a ha => inter_all_nonempty a ha))
    pyOpen_pdisj

/-- A missing gap shares no timestamp with any cached key. -/
lemma missing_disjoint_keys {h : Hist} {s e : Time} {a : Atomic}
    (ha : a ∈ get_missing_intervals h s e) {t : Time} (hm : a.mem t = true) :
    ∀ p ∈ h, memI p.1 t = false := by
  have hmem : memI (get_missing_intervals h s e) t = true := memI_iff.mpr ⟨a, ha, hm⟩
  rw [memI_missing] at hmem
  obtain ⟨-, -, hav⟩ := hmem
  intro p hp
  rw [Bool.eq_false_iff]
  intro hcontra
  rw [Bool.eq_false_iff] at hav
  exact hav (memI_avail.mpr ⟨p, hp, hcontra⟩)

/-- The open version of an atomic interval is contained in it. -/
lemma mem_pyOpen_sub {a : Atomic} {t : Time}
    (hm : memI (pyOpen a.lo a.hi) t = true) : a.mem t = true := by
  rw [memI_pyOpen] at hm
  rw [Atomic.mem_iff]
  obtain ⟨h1, h2⟩ := hm
  constructor
  · cases hlo : a.lo with
    | none => exact satLo_none
    | some l =>
      rw [hlo] at h1
      exact satLo_of_lt h1 _
  · cases hhi : a.hi with
    | none => exact satHi_none
    | some u =>
      rw [hhi] at h2
      exact satHi_of_lt h2 _

lemma histSet_keysDisjoint {h : Hist} {k : PInterval} {v : List DataPoint}
    (hd : KeysDisjoint h)
    (hnew : ∀ p ∈ h, ∀ t, ¬(memI p.1 t = true ∧ memI k t = true)) :
    KeysDisjoint (histSet h k v) := by
  have hkey : ∀ x : PInterval × List DataPoint,
      (if x.1 = k then (k, v) else x).1 = x.1 := by
    intro x
    split
    · rename_i hx
      exact hx.symm
    · rfl
  unfold histSet
  split
  · rw [KeysDisjoint, List.pairwise_map]
    apply List.Pairwise.imp ?_ hd
    intro p q hpq t
    rw [hkey p, hkey q]
    exact hpq t
  · rw [KeysDisjoint, List.pairwise_append]
    refine ⟨hd, List.pairwise_singleton _ _, fun p hp q hq t => ?_⟩
    rcases List.mem_singleton.mp hq with rfl
    exact hnew p hp t

/-- `_populate_cache` over pairwise-disjoint gaps that avoid all
cached keys preserves key disjointness. -/
lemma populate_keysDisjoint {node : Node} {fuel : Nat} :
    ∀ {atoms : List Atomic} {h h2 : Hist} {er : Bool} {n : Nat},
      populate_cache node fuel h atoms = some (h2, er, n) →
      KeysDisjoint h →
      (∀ a ∈ atoms, ∀ t, a.mem t = true → ∀ p ∈ h, memI p.1 t = false) →
      List.Pairwise ADisj atoms →
      KeysDisjoint h2 := by
  intro atoms
  induction atoms with
  | nil =>
    intro h h2 er n hp hd _ _
    rw [populate_nil] at hp
    simp only [Option.some.injEq, Prod.mk.injEq] at hp
    obtain ⟨rfl, -, -⟩ := hp
    exact hd
  | cons a rest ih =>
    intro h h2 er n hp hd hdisj hpair
    rw [populate_cons] at hp
    cases hn : node_read_full_history node fuel (a.lo.getD 0) (a.hi.getD 0) with
    | none => rw [hn] at hp; cases hp
    | some pr =>
      rw [hn] at hp
      rcases pr with ⟨er' | dvs, m⟩
      · dsimp only at hp
        simp only [Option.some.injEq, Prod.mk.injEq] at hp
        obtain ⟨rfl, -, -⟩ := hp
        exact hd
      · dsimp only at hp
        cases hp2 : populate_cache node fuel (histSet h (pyOpen a.lo a.hi) dvs) rest with
        | none => rw [hp2] at hp; cases hp
        | some tr =>
          rw [hp2] at hp
          rcases tr with ⟨h3, er3, n3⟩
          dsimp only at hp
          simp only [Option.some.injEq, Prod.mk.injEq] at hp
          obtain ⟨rfl, -, -⟩ := hp
          obtain ⟨hhead, htail⟩ := List.pairwise_cons.mp hpair
          apply ih hp2
          · apply histSet_keysDisjoint hd
            intro p hp3 t ⟨hm1, hm2⟩
            have := hdisj a (by simp) t (mem_pyOpen_sub hm2) p hp3
            rw [this] at hm1
            exact Bool.noConfusion hm1
          · intro b hb t hm p hp3
            rcases histSet_subset' hp3 with hins | rfl
            · exact hdisj b (List.mem_cons_of_mem a hb) t hm p hins
            · rw [Bool.eq_false_iff]
              intro hcontra
              exact hhead b hb t ⟨mem_pyOpen_sub hcontra, hm⟩
          · exact htail

lemma get_history_keysDisjoint {node : Node} {fuel : Nat} {h : Hist}
    {s e : Time} {r : QueryResult} (hr : get_history node fuel h s e = some r)
    (hd : KeysDisjoint h) : KeysDisjoint r.hist := by
  cases hraised : r.raised with
  | true =>
    obtain ⟨-, hp⟩ := get_history_raised hr hraised
    exact populate_keysDisjoint hp hd
      (fun a ha t hm => missing_disjoint_keys ha hm) missing_pdisj
  | false =>
    obtain ⟨-, hcase⟩ := get_history_ok hr hraised
    rcases hcase with ⟨-, rfl, -⟩ | hp
    · exact hd
    · exact populate_keysDisjoint hp hd
        (fun a ha t hm => missing_disjoint_keys ha hm) missing_pdisj

lemma run_queries_keysDisjoint {node : Node} {fuel : Nat} :
    ∀ {qs : List (Time × Time)} {h h2 : Hist},
      run_queries node fuel h qs = some h2 → KeysDisjoint h → KeysDisjoint h2 := by
  intro qs
  induction qs with
  | nil =>
    intro h h2 hrun hd
    rw [run_queries] at hrun
    cases Option.some.inj hrun
    exact hd
  | cons q qs ih =>
    intro h h2 hrun hd
    rcases q with ⟨s, e⟩
    rw [run_queries] at hrun
    cases hg : get_history node fuel h s e with
    | none => rw [hg] at hrun; cases hrun
    | some r =>
      rw [hg] at hrun
      exact ih hrun (get_history_keysDisjoint hg hd)

/-! ### Bound provenance (C1 machinery): every finite bound of a
computed interval comes from the inputs -/

lemma tightLo_cases (a b : Atomic) :
    (tightLo a b).1 = a.lo ∨ (tightLo a b).1 = b.lo := by
  unfold tightLo
  cases a.lo <;> cases b.lo <;> dsimp only
  · exact Or.inl rfl
  · exact Or.inr rfl
  · exact Or.inl rfl
  case some.some x y =>
    rcases lt_trichotomy x y with hc | hc | hc
    · rw [if_pos hc]
      exact Or.inr rfl
    · subst hc
      rw [if_neg (lt_irrefl x), if_neg (lt_irrefl x)]
      exact Or.inl rfl
    · rw [if_neg (not_lt.mpr hc.le), if_pos hc]
      exact Or.inl rfl

lemma tightHi_cases (a b : Atomic) :
    (tightHi a b).1 = a.hi ∨ (tightHi a b).1 = b.hi := by
  unfold tightHi
  cases a.hi <;> cases b.hi <;> dsimp only
  · exact Or.inl rfl
  · exact Or.inr rfl
  · exact Or.inl rfl
  case some.some x y =>
    rcases lt_trichotomy x y with hc | hc | hc
    · rw [if_pos hc]
      exact Or.inl rfl
    · subst hc
      rw [if_neg (lt_irrefl x), if_neg (lt_irrefl x)]
      exact Or.inl rfl
    · rw [if_neg (not_lt.mpr hc.le), if_pos hc]
      exact Or.inr rfl

lemma bounds_atomicInter {a b c : Atomic} (h : atomicInter a b = some c) :
    ∀ x ∈ aBounds c, x ∈ aBounds a ∨ x ∈ aBounds b := by
  unfold atomicInter at h
  split at h
  · cases Option.some.inj h
    intro x hx
    rw [aBounds, List.mem_append] at hx
    rcases hx with hx | hx
    · rcases tightLo_cases a b with hc | hc <;> rw [hc] at hx
      · exact Or.inl (List.mem_append_left _ hx)
      · exact Or.inr (List.mem_append_left _ hx)
    · rcases tightHi_cases a b with hc | hc <;> rw [hc] at hx
      · exact Or.inl (List.mem_append_right _ hx)
      · exact Or.inr (List.mem_append_right _ hx)
  · cases h

lemma bounds_inter {A B : PInterval} :
    ∀ x ∈ iBounds (inter A B), x ∈ iBounds A ∨ x ∈ iBounds B := by
  intro x hx
  rw [iBounds, List.mem_flatMap] at hx
  obtain ⟨c, hc, hxc⟩ := hx
  simp only [inter, List.mem_flatMap, List.mem_filterMap] at hc
  obtain ⟨a, ha, b, hb, hab⟩ := hc
  rcases bounds_atomicInter hab x hxc with hx | hx
  · exact Or.inl ((List.mem_flatMap).mpr ⟨a, ha, hx⟩)
  · exact Or.inr ((List.mem_flatMap).mpr ⟨b, hb, hx⟩)

lemma bounds_atomicComplement {a : Atomic} :
    ∀ x ∈ iBounds (atomicComplement a), x ∈ aBounds a := by
  intro x hx
  obtain ⟨lo, lO, hi, hO⟩ := a
  rw [iBounds, List.mem_flatMap] at hx
  obtain ⟨c, hc, hxc⟩ := hx
  unfold atomicComplement at hc
  rw [List.mem_append] at hc
  rcases hc with hc | hc
  · cases hlo : lo with
    | none => rw [hlo] at hc; cases hc
    | some l =>
      rw [hlo] at hc
      rcases List.mem_singleton.mp hc with rfl
      simp only [aBounds, Option.toList] at hxc ⊢
      rw [List.mem_append] at hxc
      rcases hxc with hxc | hxc
      · cases hxc
      · exact List.mem_append_left _ hxc
  · cases hhi : hi with
    | none => rw [hhi] at hc; cases hc
    | some h2 =>
      rw [hhi] at hc
      rcases List.mem_singleton.mp hc with rfl
      simp only [aBounds, Option.toList] at hxc ⊢
      rw [List.mem_append] at hxc
      rcases hxc with hxc | hxc
      · exact List.mem_append_right _ hxc
      · cases hxc

lemma bounds_complement {A : PInterval} :
    ∀ x ∈ iBounds (complement A), x ∈ iBounds A := by
  unfold complement
  have hgen : ∀ (l : List Atomic) (acc : PInterval) (x : Time),
      x ∈ iBounds (l.foldl (fun acc a => inter acc (atomicComplement a)) acc) →
      x ∈ iBounds acc ∨ ∃ a ∈ l, x ∈ aBounds a := by
    intro l
    induction l with
    | nil => intro acc x hx; exact Or.inl hx
    | cons a l ih =>
      intro acc x hx
      rw [List.foldl_cons] at hx
      rcases ih _ x hx with hx2 | ⟨b, hb, hxb⟩
      · rcases bounds_inter x hx2 with hx3 | hx3
        · exact Or.inl hx3
        · exact Or.inr ⟨a, by simp, bounds_atomicComplement x hx3⟩
      · exact Or.inr ⟨b, List.mem_cons_of_mem a hb, hxb⟩
  intro x hx
  rcases hgen A [fullAtomic] x hx with hx2 | ⟨a, ha, hxa⟩
  · simp [iBounds, fullAtomic, aBounds] at hx2
  · exact (List.mem_flatMap).mpr ⟨a, ha, hxa⟩

lemma bounds_mergeA {a b : Atomic} :
    ∀ x ∈ aBounds (mergeA a b), x ∈ aBounds a ∨ x ∈ aBounds b := by
  intro x hx
  unfold mergeA at hx
  split at hx
  · rw [aBounds, List.mem_append] at hx
    rcases hx with hx | hx
    · exact Or.inl (List.mem_append_left _ hx)
    · exact Or.inr (List.mem_append_right _ hx)
  · exact Or.inl hx

lemma bounds_fuseAux :
    ∀ {l : List Atomic} {a : Atomic}, ∀ x ∈ iBounds (fuseAux a l),
      x ∈ aBounds a ∨ x ∈ iBounds l := by
  intro l
  induction l with
  | nil =>
    intro a x hx
    rw [fuseAux] at hx
    simp only [iBounds, List.flatMap_cons, List.flatMap_nil, List.append_nil] at hx
    exact Or.inl hx
  | cons b rest ih =>
    intro a x hx
    rw [fuseAux] at hx
    split at hx
    · rcases ih x hx with hx2 | hx2
      · rcases bounds_mergeA x hx2 with hx3 | hx3
        · exact Or.inl hx3
        · exact Or.inr ((List.mem_flatMap).mpr ⟨b, by simp, hx3⟩)
      · right
        rw [iBounds, List.mem_flatMap] at hx2
        obtain ⟨c, hc, hxc⟩ := hx2
        exact (List.mem_flatMap).mpr ⟨c, List.mem_cons_of_mem b hc, hxc⟩
    · rw [iBounds, List.flatMap_cons, List.mem_append] at hx
      rcases hx with hx | hx
      · exact Or.inl hx
      · rcases ih x hx with hx2 | hx2
        · exact Or.inr ((List.mem_flatMap).mpr ⟨b, by simp, hx2⟩)
        · right
          rw [iBounds, List.mem_flatMap] at hx2
          obtain ⟨c, hc, hxc⟩ := hx2
          exact (List.mem_flatMap).mpr ⟨c, List.mem_cons_of_mem b hc, hxc⟩

lemma bounds_normalize {l : PInterval} :
    ∀ x ∈ iBounds (normalize l), x ∈ iBounds l := by
  intro x hx
  unfold normalize fuse at hx
  have hperm := List.perm_insertionSort loLe (l.filter Atomic.nonempty)
  have hsub : ∀ c ∈ List.insertionSort loLe (l.filter Atomic.nonempty), c ∈ l := by
    intro c hc
    exact (List.mem_filter.mp (hperm.mem_iff.mp hc)).1
  rcases hl : List.insertionSort loLe (l.filter Atomic.nonempty) with _ | ⟨a, rest⟩
  · rw [hl] at hx
    cases hx
  · rw [hl] at hx
    have hmem : ∀ y, y ∈ aBounds a ∨ y ∈ iBounds rest → y ∈ iBounds l := by
      intro y hy
      rcases hy with hy | hy
      · exact (List.mem_flatMap).mpr ⟨a, hsub a (by rw [hl]; simp), hy⟩
      · rw [iBounds, List.mem_flatMap] at hy
        obtain ⟨c, hc, hyc⟩ := hy
        exact (List.mem_flatMap).mpr
          ⟨c, hsub c (by rw [hl]; exact List.mem_cons_of_mem a hc), hyc⟩
    exact hmem x (bounds_fuseAux x hx)

lemma bounds_union {A B : PInterval} :
    ∀ x ∈ iBounds (union A B), x ∈ iBounds A ∨ x ∈ iBounds B := by
  intro x hx
  have := bounds_normalize x hx
  rw [iBounds, List.mem_flatMap] at this
  obtain ⟨c, hc, hxc⟩ := this
  rcases List.mem_append.mp hc with hc | hc
  · exact Or.inl ((List.mem_flatMap).mpr ⟨c, hc, hxc⟩)
  · exact Or.inr ((List.mem_flatMap).mpr ⟨c, hc, hxc⟩)

lemma bounds_avail {h : Hist} :
    ∀ x ∈ iBounds (history_available_interval h), x ∈ keyBounds h := by
  unfold history_available_interval
  cases h with
  | nil =>
    intro x hx
    cases hx
  | cons p rest =>
    have hgen : ∀ (l : List (PInterval × List DataPoint)) (acc : PInterval) (x : Time),
        x ∈ iBounds (l.foldl (fun acc q => union acc q.1) acc) →
        x ∈ iBounds acc ∨ ∃ q ∈ l, x ∈ iBounds q.1 := by
      intro l
      induction l with
      | nil => intro acc x hx; exact Or.inl hx
      | cons q l ih =>
        intro acc x hx
        rw [List.foldl_cons] at hx
        rcases ih _ x hx with hx2 | ⟨q2, hq2, hxq⟩
        · rcases bounds_union x hx2 with hx3 | hx3
          · exact Or.inl hx3
          · exact Or.inr ⟨q, by simp, hx3⟩
        · exact Or.inr ⟨q2, List.mem_cons_of_mem q hq2, hxq⟩
    intro x hx
    rcases hgen rest p.1 x hx with hx2 | ⟨q, hq, hxq⟩
    · exact (List.mem_flatMap).mpr ⟨p, by simp, hx2⟩
    · exact (List.mem_flatMap).mpr ⟨q, List.mem_cons_of_mem p hq, hxq⟩

lemma bounds_pyOpen {lo hi : Option Time} :
    ∀ x ∈ iBounds (pyOpen lo hi), x ∈ lo.toList ++ hi.toList := by
  intro x hx
  unfold pyOpen at hx
  split at hx
  · simp only [iBounds, List.flatMap_cons, List.flatMap_nil, List.append_nil] at hx
    exact hx
  · cases hx

/-- Every finite bound of a missing gap is a bound of a cached key or
one of the query endpoints. -/
lemma bounds_missing {h : Hist} {s e : Time} :
    ∀ x ∈ iBounds (get_missing_intervals h s e),
      x ∈ keyBounds h ∨ x = s ∨ x = e := by
  intro x hx
  unfold get_missing_intervals at hx
  have hreq : ∀ y ∈ iBounds (pyOpen (some s) (some e)), y = s ∨ y = e := by
    intro y hy
    have := bounds_pyOpen y hy
    simp only [Option.toList, List.cons_append, List.nil_append,
      List.mem_cons, List.not_mem_nil, or_false] at this
    exact this
  rcases bounds_inter x hx with hx2 | hx2
  · have hx3 := bounds_complement x hx2
    unfold get_available_interval at hx3
    rcases bounds_inter x hx3 with hx4 | hx4
    · exact Or.inl (bounds_avail x hx4)
    · exact Or.inr (hreq x hx4)
  · exact Or.inr (hreq x hx2)

/-- A point of an atomic interval is in its open version unless it is
one of the interval's finite bounds. -/
lemma mem_open_or_bound {a : Atomic} {t : Time} (hm : a.mem t = true) :
    memI (pyOpen a.lo a.hi) t = true ∨ t ∈ aBounds a := by
  rw [Atomic.mem_iff] at hm
  obtain ⟨hm1, hm2⟩ := hm
  by_cases h1 : SatLo a.lo true t
  · by_cases h2 : SatHi a.hi true t
    · left
      rw [memI_pyOpen]
      exact ⟨h1, h2⟩
    · right
      cases hhi : a.hi with
      | none =>
        rw [hhi] at h2
        exact absurd satHi_none h2
      | some u =>
        rw [hhi] at h2 hm2
        have hne : ¬ t < u := fun hc => h2 hc
        have : t = u := le_antisymm (satHi_le hm2) (not_lt.mp hne)
        subst this
        rw [aBounds, hhi]
        exact List.mem_append_right _ (by simp)
  · right
    cases hlo : a.lo with
    | none =>
      rw [hlo] at h1
      exact absurd satLo_none h1
    | some l =>
      rw [hlo] at h1 hm1
      have hne : ¬ l < t := fun hc => h1 hc
      have : t = l := le_antisymm (not_lt.mp hne) (satLo_le hm1)
      subst this
      rw [aBounds, hlo]
      exact List.mem_append_left _ (by simp)

/-- After a successful `get_history(start, end)`, every timestamp
strictly inside `(start, end)` is either covered by the union of the
cache's keys or is a finite bound of a key that existed before the
call. -/
lemma covered_or_bound {node : Node} {fuel : Nat} {h : Hist} {s e : Time}
    {r : QueryResult} (hr : get_history node fuel h s e = some r)
    (hok : r.raised = false) {t : Time} (h1 : s < t) (h2 : t < e) :
    memI (history_available_interval r.hist) t = true ∨ t ∈ keyBounds h := by
  obtain ⟨-, hcase⟩ := get_history_ok hr hok
  by_cases hav : memI (history_available_interval h) t = true
  · left
    obtain ⟨p, hp, hm⟩ := memI_avail.mp hav
    rcases hcase with ⟨-, rfl, -⟩ | hp2
    · exact hav
    · obtain ⟨w, hw⟩ := populate_keys_mono hp2 p.1 ⟨p.2, hp⟩
      exact memI_avail.mpr ⟨(p.1, w), hw, hm⟩
  · have hmiss : memI (get_missing_intervals h s e) t = true := by
      rw [memI_missing]
      exact ⟨h1, h2, Bool.eq_false_iff.mpr hav⟩
    obtain ⟨a, ha, hm⟩ := memI_iff.mp hmiss
    rcases hcase with ⟨hmiss0, -, -⟩ | hp2
    · rw [hmiss0] at ha
      cases ha
    · rcases mem_open_or_bound hm with hopen | hbound
      · left
        obtain ⟨w, hw⟩ := populate_inserted hp2 a ha
        exact memI_avail.mpr ⟨(pyOpen a.lo a.hi, w), hw, hopen⟩
      · right
        have hxb : t ∈ iBounds (get_missing_intervals h s e) :=
          (List.mem_flatMap).mpr ⟨a, ha, hbound⟩
        rcases bounds_missing t hxb with hk | hs' | he'
        · exact hk
        · exact absurd hs' (ne_of_gt h1)
        · exact absurd he' (ne_of_lt h2)

/-! ### Idempotence up to degenerate gaps (C3 machinery) -/

/-- A nonempty open rational interval contains a point outside any
finite list of timestamps. -/
lemma exists_mem_Ioo_not_mem_list :
    ∀ (B : List Time) {lo hi : Time}, lo < hi →
      ∃ t, lo < t ∧ t < hi ∧ t ∉ B := by
  intro B
  induction B with
  | nil =>
    intro lo hi h
    obtain ⟨t, h1, h2⟩ := exists_between h
    exact ⟨t, h1, h2, by simp⟩
  | cons b rest ih =>
    intro lo hi h
    by_cases hb : lo < b ∧ b < hi
    · obtain ⟨t, h1, h2, h3⟩ := ih hb.1
      refine ⟨t, h1, lt_trans h2 hb.2, ?_⟩
      simp only [List.mem_cons, not_or]
      exact ⟨ne_of_lt h2, h3⟩
    · obtain ⟨t, h1, h2, h3⟩ := ih h
      refine ⟨t, h1, h2, ?_⟩
      simp only [List.mem_cons, not_or]
      refine ⟨?_, h3⟩
      rintro rfl
      exact hb ⟨h1, h2⟩

/-- A symbolically nonempty atomic interval is either a degenerate
closed singleton `[v, v]` or contains a whole nonempty open
interval. -/
lemma nonempty_degenerate_or_contains_open {a : Atomic}
    (hne : a.nonempty = true) :
    (∃ v, a.lo = some v ∧ a.hi = some v ∧ a.loOpen = false ∧ a.hiOpen = false) ∨
    ∃ lo' hi' : Time, lo' < hi' ∧ ∀ t, lo' < t → t < hi' → a.mem t = true := by
  obtain ⟨lo, lO, hi, hO⟩ := a
  cases lo <;> cases hi
  · right
    exact ⟨0, 1, by norm_num, fun t _ _ => by
      rw [Atomic.mem_iff]; exact ⟨satLo_none, satHi_none⟩⟩
  case none.some hv =>
    right
    refine ⟨hv - 1, hv, by linarith, fun t _ h2 => ?_⟩
    rw [Atomic.mem_iff]
    exact ⟨satLo_none, satHi_of_lt h2 _⟩
  case some.none lv =>
    right
    refine ⟨lv, lv + 1, by linarith, fun t h1 _ => ?_⟩
    rw [Atomic.mem_iff]
    exact ⟨satLo_of_lt h1 _, satHi_none⟩
  case some.some lv hv =>
    simp only [Atomic.nonempty, Bool.or_eq_true, Bool.and_eq_true,
      decide_eq_true_eq, Bool.not_eq_true'] at hne
    rcases hne with hlt | ⟨⟨heq, hlc⟩, hhc⟩
    · right
      refine ⟨lv, hv, hlt, fun t h1 h2 => ?_⟩
      rw [Atomic.mem_iff]
      exact ⟨satLo_of_lt h1 _, satHi_of_lt h2 _⟩
    · left
      subst heq hlc hhc
      exact ⟨lv, rfl, rfl, rfl, rfl⟩

lemma flatMap_map_eq {α β : Type} {f : α → α} {g : α → List β}
    (hfg : ∀ x, g (f x) = g x) :
    ∀ l : List α, (l.map f).flatMap g = l.flatMap g := by
  intro l
  induction l with
  | nil => rfl
  | cons a l ih => rw [List.map_cons, List.flatMap_cons, List.flatMap_cons, hfg, ih]

lemma dvs_entry_nil {s e : Time} {p : PInterval × List DataPoint}
    (hp : p.1 = ([] : PInterval)) :
    (if inter p.1 (pyOpen (some s) (some e)) = [] then []
     else get_partial_dvs (iLower (inter p.1 (pyOpen (some s) (some e))))
       (iUpper (inter p.1 (pyOpen (some s) (some e)))) p.2) =
      ([] : List DataPoint) := by
  rw [hp]
  have hnil : inter ([] : PInterval) (pyOpen (some s) (some e)) = [] := rfl
  rw [if_pos hnil]

/-- A binding keyed by the empty interval is invisible to the read
path. -/
lemma dvs_from_cache_histSet_nil {h : Hist} {v : List DataPoint} {s e : Time} :
    dvs_from_cache (histSet h ([] : PInterval) v) s e = dvs_from_cache h s e := by
  unfold histSet dvs_from_cache
  split
  · apply flatMap_map_eq
    intro p
    by_cases hp : p.1 = ([] : PInterval)
    · rw [if_pos hp]
      rw [dvs_entry_nil (p := (([] : PInterval), v)) rfl, dvs_entry_nil hp]
    · rw [if_neg hp]
  · rw [List.flatMap_append, List.flatMap_cons, List.flatMap_nil,
      dvs_entry_nil (p := (([] : PInterval), v)) rfl]
    exact List.append_nil _

/-- `_populate_cache` over gaps whose open span is empty never
changes what the read path yields. -/
lemma populate_degenerate_dvs {node : Node} {fuel : Nat} :
    ∀ {atoms : List Atomic} {h h2 : Hist} {er : Bool} {n : Nat},
      populate_cache node fuel h atoms = some (h2, er, n) →
      (∀ a ∈ atoms, pyOpen a.lo a.hi = []) →
      ∀ s e, dvs_from_cache h2 s e = dvs_from_cache h s e := by
  intro atoms
  induction atoms with
  | nil =>
    intro h h2 er n hp _ s e
    rw [populate_nil] at hp
    simp only [Option.some.injEq, Prod.mk.injEq] at hp
    obtain ⟨rfl, -, -⟩ := hp
    rfl
  | cons a rest ih =>
    intro h h2 er n hp hdeg s e
    rw [populate_cons] at hp
    cases hn : node_read_full_history node fuel (a.lo.getD 0) (a.hi.getD 0) with
    | none => rw [hn] at hp; cases hp
    | some pr =>
      rw [hn] at hp
      rcases pr with ⟨er' | dvs, m⟩
      · dsimp only at hp
        simp only [Option.some.injEq, Prod.mk.injEq] at hp
        obtain ⟨rfl, -, -⟩ := hp
        rfl
      · dsimp only at hp
        rw [hdeg a (by simp)] at hp
        cases hp2 : populate_cache node fuel (histSet h ([] : PInterval) dvs) rest with
        | none => rw [hp2] at hp; cases hp
        | some tr =>
          rw [hp2] at hp
          rcases tr with ⟨h3, er3, n3⟩
          dsimp only at hp
          simp only [Option.some.injEq, Prod.mk.injEq] at hp
          obtain ⟨rfl, -, -⟩ := hp
          rw [ih hp2 (fun b hb => hdeg b (List.mem_cons_of_mem a hb)) s e,
            dvs_from_cache_histSet_nil]

/-! ## The claims -/

/-- **C4** (gap-fetch termination): `node_read_full_history(node,
start, end)` terminates — the loop finishes within bounded fuel and
yields a finite sequence — whenever (a) the page request at the
cursor returns an empty sequence, or (b) the page's last point's
timestamp equals the cursor value passed as that page's start, or
(c) the page's last point's timestamp exceeds `end`, so that the
cursor overshoots the requested upper bound (at most one further page
request happens, after which every termination check fires). -/
theorem claim4_gap_fetch_termination (node : Node) (s e : Time) :
    (node s e = .ok [] → node_read_full_history node 1 s e = some (.ok [], 1)) ∧
    (∀ vals p, node s e = .ok vals → vals.getLast? = some p →
      p.sourceTimestamp = s →
      node_read_full_history node 1 s e = some (.ok vals, 1)) ∧
    (∀ vals p, node s e = .ok vals → vals.getLast? = some p →
      e < p.sourceTimestamp →
      ∃ res, node_read_full_history node 2 s e = some res) :=
  ⟨fun hn => nrfh_empty_page hn,
   fun _ _ hn hl hp => nrfh_repeat_cursor hn hl hp,
   fun _ _ hn hl hp => nrfh_overshoot hn hl hp⟩

/-- Witness for C4: the three termination scenarios at concrete
sources — an empty source, a source whose page for `[5, 7]` ends at
the cursor `5`, and a source whose only sample `10` overshoots the
bound `5`. -/
theorem claim4_gap_fetch_termination_witness :
    node_read_full_history nodeEmpty 1 0 1 = some (.ok [], 1) ∧
    node_read_full_history nodeData 1 5 7 = some (.ok [⟨5, 5⟩], 1) ∧
    ∃ res, node_read_full_history nodeOvershoot 2 0 5 = some res :=
  ⟨(claim4_gap_fetch_termination nodeEmpty 0 1).1 rfl,
   (claim4_gap_fetch_termination nodeData 5 7).2.1 [⟨5, 5⟩] ⟨5, 5⟩ rfl rfl rfl,
   (claim4_gap_fetch_termination nodeOvershoot 0 5).2.2 [⟨10, 10⟩] ⟨10, 10⟩ rfl rfl
     (by decide)⟩

/-- **C5, counterexample**: the claim says `get_history(start, end)`
with `start ≥ end` signals an invalid-range error, but the code
performs no such check: at `start = 5 > 3 = end` the call returns
normally (no exception raised, an empty sequence, no fetch). -/
theorem claim5_counterexample :
    get_history nodeEmpty 1 [] 5 3 = some ⟨[], false, [], 0⟩ ∧ (3 : Time) ≤ 5 := by
  constructor
  · rfl
  · decide

/-- **C5, amended**: for `start ≥ end`, `get_history` raises no
invalid-range error; the arguments are silently normalized to an
empty open interval, so the call returns an empty sequence, fetches
nothing and leaves the mapping unchanged. -/
theorem claim5_amended_degenerate_range_silent (node : Node) (fuel : Nat)
    (h : Hist) (s e : Time) (hse : e ≤ s) :
    get_history node fuel h s e = some ⟨h, false, [], 0⟩ :=
  degenerate_get_history hse

/-- Witness for the amended C5, at equal bounds `start = end = 7`. -/
theorem claim5_amended_degenerate_range_silent_witness :
    get_history nodeData 9 [] 7 7 = some ⟨[], false, [], 0⟩ :=
  claim5_amended_degenerate_range_silent nodeData 9 [] 7 7 (by decide)

/-- **C6** (no redundant fetch): if every timestamp of the open query
interval `(start, end)` is already covered by the union of the
cache's interval keys, `get_history` performs zero page requests
(zero `read_raw_history` calls), raises nothing and leaves the
mapping unchanged. -/
theorem claim6_no_redundant_fetch (node : Node) (fuel : Nat) (h : Hist)
    (s e : Time)
    (hcov : ∀ t : Time, s < t → t < e →
      memI (history_available_interval h) t = true) :
    get_history node fuel h s e = some ⟨h, false, dvs_from_cache h s e, 0⟩ := by
  unfold get_history
  rw [missing_nil_of_covered hcov, if_pos rfl]

/-- Witness for C6: a cache holding `(0, 10)` fully covers the query
`(2, 5)`, so the call answers from the cache with zero fetches. -/
theorem claim6_no_redundant_fetch_witness :
    get_history nodeData 9 [(pyOpen (some 0) (some 10), dataPts)] 2 5 =
      some ⟨[(pyOpen (some 0) (some 10), dataPts)], false,
        dvs_from_cache [(pyOpen (some 0) (some 10), dataPts)] 2 5, 0⟩ :=
  claim6_no_redundant_fetch nodeData 9 _ 2 5 (fun t h1 h2 => by
    have hav : history_available_interval [(pyOpen (some 0) (some 10), dataPts)] =
        pyOpen (some 0) (some 10) := rfl
    rw [hav, memI_req]
    exact ⟨by linarith, by linarith⟩)

/-- **C10** (implicit degenerate-range behavior): for `start ≥ end`,
`get_history` raises no error, performs zero page requests, leaves
the history mapping unchanged and returns a sequence yielding no
points — the degenerate range is treated as an empty open interval
rather than rejected. -/
theorem claim10_degenerate_range_noop (node : Node) (fuel : Nat) (h : Hist)
    (s e : Time) (hse : e ≤ s) :
    get_history node fuel h s e = some ⟨h, false, [], 0⟩ :=
  degenerate_get_history hse

/-- Witness for C10 at `start = 5 > 3 = end`, over a nonempty
cache. -/
theorem claim10_degenerate_range_noop_witness :
    get_history nodeEmpty 1 [(pyOpen (some 0) (some 1), [])] 5 3 =
      some ⟨[(pyOpen (some 0) (some 1), [])], false, [], 0⟩ :=
  claim10_degenerate_range_noop nodeEmpty 1 [(pyOpen (some 0) (some 1), [])] 5 3
    (by decide)

/-- **C9** (failed fetch not committed): when a page request raises
partway through filling the gaps of a `get_history` call, the
exception propagates to the caller (no sequence is returned), and the
resulting mapping is exactly the one produced by the successfully
completed prefix of gaps: entries inserted for earlier gaps remain,
every binding either predates the call or is keyed by a prefix gap's
span (so no partial entry for the failing gap is committed), and all
pre-existing keys survive. -/
theorem claim9_failed_fetch_not_committed {node : Node} {fuel : Nat} {h : Hist}
    {s e : Time} {r : QueryResult} (hr : get_history node fuel h s e = some r)
    (hraised : r.raised = true) :
    r.points = [] ∧
    ∃ pre a post m k,
      get_missing_intervals h s e = pre ++ a :: post ∧
      node_read_full_history node fuel (a.lo.getD 0) (a.hi.getD 0) =
        some (.error (), k) ∧
      populate_cache node fuel h pre = some (r.hist, false, m) ∧
      r.fetches = m + k ∧
      (∀ p ∈ r.hist, p ∈ h ∨ ∃ b ∈ pre, p.1 = pyOpen b.lo b.hi) ∧
      (∀ k' : PInterval, (∃ w, (k', w) ∈ h) → ∃ w, (k', w) ∈ r.hist) := by
  obtain ⟨hpts, hp⟩ := get_history_raised hr hraised
  obtain ⟨pre, a, post, m, k, hsplit, herr, hpre, hsum⟩ := populate_error_decomp hp
  exact ⟨hpts, pre, a, post, m, k, hsplit, herr, hpre, hsum,
    populate_src hpre, fun k' hk' => populate_keys_mono hpre k' hk'⟩

/-- Witness for C9: a cache holding `(2, 3)` queried over `(0, 6)`
against a source that raises for any page starting at `3` or later:
the first gap `(0, 2]` succeeds, the second gap `[3, 6)` raises. -/
theorem claim9_failed_fetch_not_committed_witness :
    get_history nodeErr 9 [(pyOpen (some 2) (some 3), [])] 0 6 =
      some ⟨[(pyOpen (some 2) (some 3), []), (pyOpen (some 0) (some 2), [])],
        true, [], 2⟩ ∧
    ([] : List DataPoint) = [] ∧
    ∃ pre a post m k,
      get_missing_intervals [(pyOpen (some 2) (some 3), [])] 0 6 =
        pre ++ a :: post ∧
      node_read_full_history nodeErr 9 (a.lo.getD 0) (a.hi.getD 0) =
        some (.error (), k) ∧
      populate_cache nodeErr 9 [(pyOpen (some 2) (some 3), [])] pre =
        some ([(pyOpen (some 2) (some 3), []), (pyOpen (some 0) (some 2), [])],
          false, m) ∧
      (2 : Nat) = m + k ∧
      (∀ p ∈ [(pyOpen (some 2) (some 3), ([] : List DataPoint)),
          (pyOpen (some 0) (some 2), [])],
        p ∈ [(pyOpen (some 2) (some 3), ([] : List DataPoint))] ∨
          ∃ b ∈ pre, p.1 = pyOpen b.lo b.hi) ∧
      (∀ k' : PInterval, (∃ w, (k', w) ∈ [(pyOpen (some 2) (some 3), ([] : List DataPoint))]) →
        ∃ w, (k', w) ∈ [(pyOpen (some 2) (some 3), ([] : List DataPoint)),
          (pyOpen (some 0) (some 2), [])]) :=
  ⟨rfl, claim9_failed_fetch_not_committed (r := ⟨[(pyOpen (some 2) (some 3), []),
    (pyOpen (some 0) (some 2), [])], true, [], 2⟩) rfl rfl⟩


/-- **C7, counterexample**: the claim says every cache entry created
by `get_history` calls (for a source returning ascending pages) is
sorted with no duplicate timestamps and lies within its open key
interval; but one query `(4, 6)` against the five-sample ascending
source stores the entry `(4, 6) ↦ [4, 5, 5]`: the boundary sample `5`
is duplicated across the two page requests, and the stored timestamp
`4` does not lie within the open interval `(4, 6)`. -/
theorem claim7_counterexample :
    run_queries nodeData 9 [] [(4, 6)] =
      some [(pyOpen (some 4) (some 6), [⟨4, 4⟩, ⟨5, 5⟩, ⟨5, 5⟩])] ∧
    ¬ List.Pairwise (fun p q : DataPoint => p.sourceTimestamp ≠ q.sourceTimestamp)
      [(⟨4, 4⟩ : DataPoint), ⟨5, 5⟩, ⟨5, 5⟩] ∧
    memI (pyOpen (some 4) (some 6)) 4 = false := by
  refine ⟨rfl, by decide, rfl⟩

/-- **C7, amended**: for every source honoring the page contract
(each returned page ascending and inside the requested closed range),
every cache entry created by any sequence of `get_history` calls from
the empty cache has a point sequence sorted non-strictly ascending by
timestamp (adjacent duplicate timestamps can occur at page
boundaries and are not removed), and every stored point's timestamp
lies within the closed bounds `[lower, upper]` of the entry's key
interval. -/
theorem claim7_amended_entry_wellformedness {node : Node}
    (hgood : GoodNode node) {fuel : Nat} {qs : List (Time × Time)} {h2 : Hist}
    (hrun : run_queries node fuel [] qs = some h2) :
    ∀ p ∈ h2, EntryGood p :=
  run_queries_entries_good hgood hrun (fun p hp => absurd hp (List.not_mem_nil p))

/-- Witness for the amended C7: the entry produced by the `(4, 6)`
query against the five-sample source is well-formed (ascending, with
the duplicate `5` allowed, and inside the closed bounds `[4, 6]`). -/
theorem claim7_amended_entry_wellformedness_witness :
    EntryGood (pyOpen (some 4) (some 6), [⟨4, 4⟩, ⟨5, 5⟩, ⟨5, 5⟩]) :=
  @claim7_amended_entry_wellformedness nodeData goodNode_nodeData 9 [(4, 6)]
    [(pyOpen (some 4) (some 6), [⟨4, 4⟩, ⟨5, 5⟩, ⟨5, 5⟩])]
    (by rfl) (pyOpen (some 4) (some 6), [⟨4, 4⟩, ⟨5, 5⟩, ⟨5, 5⟩]) (by simp)


/-- **C2, counterexample**: the claim says every returned sequence is
sorted ascending because entries are visited in ascending interval
order; but `_dvs_from_cache` iterates the `dict` in insertion order.
With entries inserted by earlier queries `(4, 6)` then `(0, 2)`, the
query `(0, 6)` returns the points of the `(4, 6)` entry first:
`[4, 5, 5, 1, 2, 2, 2, 3, 4, 4]`, which is not ascending. -/
theorem claim2_counterexample :
    run_queries nodeData 9 [] [(4, 6), (0, 2)] =
      some [(pyOpen (some 4) (some 6), [⟨4, 4⟩, ⟨5, 5⟩, ⟨5, 5⟩]),
            (pyOpen (some 0) (some 2), [⟨1, 1⟩, ⟨2, 2⟩, ⟨2, 2⟩])] ∧
    get_history nodeData 9
        [(pyOpen (some 4) (some 6), [⟨4, 4⟩, ⟨5, 5⟩, ⟨5, 5⟩]),
         (pyOpen (some 0) (some 2), [⟨1, 1⟩, ⟨2, 2⟩, ⟨2, 2⟩])] 0 6 =
      some ⟨[(pyOpen (some 4) (some 6), [⟨4, 4⟩, ⟨5, 5⟩, ⟨5, 5⟩]),
             (pyOpen (some 0) (some 2), [⟨1, 1⟩, ⟨2, 2⟩, ⟨2, 2⟩]),
             (pyOpen (some 2) (some 4), [⟨2, 2⟩, ⟨3, 3⟩, ⟨4, 4⟩, ⟨4, 4⟩])],
        false,
        [⟨4, 4⟩, ⟨5, 5⟩, ⟨5, 5⟩, ⟨1, 1⟩, ⟨2, 2⟩, ⟨2, 2⟩, ⟨2, 2⟩, ⟨3, 3⟩,
          ⟨4, 4⟩, ⟨4, 4⟩], 2⟩ ∧
    ¬ List.Sorted tsLe
      [(⟨4, 4⟩ : DataPoint), ⟨5, 5⟩, ⟨5, 5⟩, ⟨1, 1⟩, ⟨2, 2⟩, ⟨2, 2⟩, ⟨2, 2⟩,
        ⟨3, 3⟩, ⟨4, 4⟩, ⟨4, 4⟩] :=
  ⟨by decide, by decide, by decide⟩

/-- **C2, amended**: every timestamp of a returned sequence lies
within `[start, end]` inclusive, for every cache state and source;
the sequence is the concatenation, in dict insertion order, of the
per-entry runs filtered to the query bounds, so it is sorted
ascending whenever the entries' stored sequences are sorted and the
entries appear in the history in ascending timestamp order — which
the code does not enforce. -/
theorem claim2_amended_bounded_ordered {node : Node} {fuel : Nat} {h : Hist}
    {s e : Time} {r : QueryResult} (hr : get_history node fuel h s e = some r) :
    (∀ x ∈ r.points, s ≤ x.sourceTimestamp ∧ x.sourceTimestamp ≤ e) ∧
    ((∀ p ∈ r.hist, List.Sorted tsLe p.2) →
      List.Pairwise (fun p q => ∀ x ∈ p.2, ∀ y ∈ q.2, tsLe x y) r.hist →
      List.Sorted tsLe r.points) := by
  have hpoints : r.points = [] ∨ r.points = dvs_from_cache r.hist s e := by
    cases hraised : r.raised with
    | true => exact Or.inl (get_history_raised hr hraised).1
    | false => exact Or.inr (get_history_ok hr hraised).1
  constructor
  · rcases hpoints with hp | hp
    · rw [hp]
      intro x hx
      cases hx
    · rw [hp]
      exact dvs_from_cache_bounded
  · intro hsorted hcross
    rcases hpoints with hp | hp
    · rw [hp]
      simp [List.Sorted]
    · rw [hp]
      unfold dvs_from_cache
      apply sorted_flatMap
      · intro p hp2
        split
        · simp [List.Sorted]
        · exact List.Sorted.filter _ (hsorted p hp2)
      · exact List.Pairwise.imp
          (fun hxy => fun x hx y hy =>
            hxy x (mem_read_entry_subset hx) y (mem_read_entry_subset hy))
          hcross

/-- Witness for the amended C2: a cache-hit query `(2, 5)` against a
single sorted entry returns `[2, 3, 4, 5]` — bounded by `[2, 5]` and
sorted. -/
theorem claim2_amended_bounded_ordered_witness :
    (∀ x ∈ [(⟨2, 2⟩ : DataPoint), ⟨3, 3⟩, ⟨4, 4⟩, ⟨5, 5⟩],
      (2 : Time) ≤ x.sourceTimestamp ∧ x.sourceTimestamp ≤ 5) ∧
    List.Sorted tsLe [(⟨2, 2⟩ : DataPoint), ⟨3, 3⟩, ⟨4, 4⟩, ⟨5, 5⟩] := by
  have hc := @claim2_amended_bounded_ordered nodeData 9
    [(pyOpen (some 0) (some 10), dataPts)] 2 5
    ⟨[(pyOpen (some 0) (some 10), dataPts)], false,
      [⟨2, 2⟩, ⟨3, 3⟩, ⟨4, 4⟩, ⟨5, 5⟩], 0⟩ (by rfl)
  refine ⟨hc.1, hc.2 ?_ ?_⟩
  · intro p hp
    rcases List.mem_singleton.mp hp with rfl
    decide
  · simp


/-- **C8** (cached spans never overlap): starting from the empty
cache, after any sequence of `get_history` calls (against any source,
any fuel, raising or not), the interval keys of the history mapping
are pairwise disjoint — no timestamp lies in two keys.  Every
interval inserted by `_populate_cache` is drawn from the complement
of the union of existing keys, so it is disjoint from every key
already present, and distinct missing gaps are disjoint from each
other. -/
theorem claim8_keys_pairwise_disjoint {node : Node} {fuel : Nat}
    {qs : List (Time × Time)} {h2 : Hist}
    (hrun : run_queries node fuel [] qs = some h2) : KeysDisjoint h2 :=
  run_queries_keysDisjoint hrun List.Pairwise.nil

/-- Witness for C8: the three disjoint spans `(4, 6)`, `(0, 2)`,
`(2, 4)` cached by the query sequence `(4, 6), (0, 2), (0, 6)`. -/
theorem claim8_keys_pairwise_disjoint_witness :
    KeysDisjoint [(pyOpen (some 4) (some 6), [⟨4, 4⟩, ⟨5, 5⟩, ⟨5, 5⟩]),
      (pyOpen (some 0) (some 2), [⟨1, 1⟩, ⟨2, 2⟩, ⟨2, 2⟩]),
      (pyOpen (some 2) (some 4), [⟨2, 2⟩, ⟨3, 3⟩, ⟨4, 4⟩, ⟨4, 4⟩])] :=
  @claim8_keys_pairwise_disjoint nodeData 9 [(4, 6), (0, 2), (0, 6)]
    [(pyOpen (some 4) (some 6), [⟨4, 4⟩, ⟨5, 5⟩, ⟨5, 5⟩]),
      (pyOpen (some 0) (some 2), [⟨1, 1⟩, ⟨2, 2⟩, ⟨2, 2⟩]),
      (pyOpen (some 2) (some 4), [⟨2, 2⟩, ⟨3, 3⟩, ⟨4, 4⟩, ⟨4, 4⟩])]
    (by decide)


/-- **C1, counterexample**: the claim says that after
`get_history(start, end)` returns, the union of the cache's interval
keys covers the whole open interval `(start, end)`.  But
`_populate_cache` stores `interval.open(lower, upper)` even when the
missing atomic interval is half-open: with `(2, 4)` cached, the query
`(0, 6)` computes the missing intervals `(0, 2]` and `[4, 6)` yet
inserts the keys `(0, 2)` and `(4, 6)`, so after the (successful)
call the timestamp `2 ∈ (0, 6)` is still uncovered. -/
theorem claim1_counterexample :
    run_queries nodeEmpty 3 [] [(2, 4)] =
      some [(pyOpen (some 2) (some 4), [])] ∧
    get_history nodeEmpty 3 [(pyOpen (some 2) (some 4), [])] 0 6 =
      some ⟨[(pyOpen (some 2) (some 4), []), (pyOpen (some 0) (some 2), []),
        (pyOpen (some 4) (some 6), [])], false, [], 2⟩ ∧
    (0 : Time) < 2 ∧ (2 : Time) < 6 ∧
    memI (history_available_interval
      [(pyOpen (some 2) (some 4), []), (pyOpen (some 0) (some 2), []),
        (pyOpen (some 4) (some 6), [])]) 2 = false :=
  ⟨by decide, by decide, by decide, by decide, by decide⟩

/-- **C1, amended**: after a successful `get_history(start, end)`,
the union of the cache's interval keys covers every timestamp of the
open interval `(start, end)` except possibly finitely many boundary
timestamps: every uncovered `t ∈ (start, end)` is a finite bound of
an interval key that existed before the call (the open re-wrapping in
`_populate_cache` drops exactly the closed endpoints of the missing
intervals, which are bounds of previously cached keys). -/
theorem claim1_amended_coverage {node : Node} {fuel : Nat} {h : Hist}
    {s e : Time} {r : QueryResult} (hr : get_history node fuel h s e = some r)
    (hok : r.raised = false) {t : Time} (h1 : s < t) (h2 : t < e) :
    memI (history_available_interval r.hist) t = true ∨ t ∈ keyBounds h :=
  covered_or_bound hr hok h1 h2

/-- Witness for the amended C1: the query `(0, 6)` over the cache
holding `(2, 4)`, at the interior timestamp `1`. -/
theorem claim1_amended_coverage_witness :
    memI (history_available_interval
      [(pyOpen (some 2) (some 4), []), (pyOpen (some 0) (some 2), []),
        (pyOpen (some 4) (some 6), [])]) 1 = true ∨
    (1 : Time) ∈ keyBounds [(pyOpen (some 2) (some 4), ([] : List DataPoint))] :=
  @claim1_amended_coverage nodeEmpty 3 [(pyOpen (some 2) (some 4), [])] 0 6
    ⟨[(pyOpen (some 2) (some 4), []), (pyOpen (some 0) (some 2), []),
      (pyOpen (some 4) (some 6), [])], false, [], 2⟩
    (by decide) rfl 1 (by decide) (by decide)


/-- **C3, counterexample**: the claim says a repeated
`get_history(start, end)` performs zero page requests.  But when the
first call filled gaps around a pre-existing entry, the boundary
timestamps stay uncovered, and the second call re-fetches them as
degenerate single-point gaps: after caching `(2, 4)` and querying
`(0, 6)`, querying `(0, 6)` again performs 2 page requests (for the
gaps `[2, 2]` and `[4, 4]`), not zero. -/
theorem claim3_counterexample :
    run_queries nodeEmpty 3 [] [(2, 4), (0, 6)] =
      some [(pyOpen (some 2) (some 4), []), (pyOpen (some 0) (some 2), []),
        (pyOpen (some 4) (some 6), [])] ∧
    get_history nodeEmpty 3
        [(pyOpen (some 2) (some 4), []), (pyOpen (some 0) (some 2), []),
          (pyOpen (some 4) (some 6), [])] 0 6 =
      some ⟨[(pyOpen (some 2) (some 4), []), (pyOpen (some 0) (some 2), []),
        (pyOpen (some 4) (some 6), []), ([], [])], false, [], 2⟩ ∧
    (2 : Nat) ≠ 0 :=
  ⟨by decide, by decide, by decide⟩

/-- **C3, amended**: calling `get_history(start, end)` twice in a row
yields the same sequence of points both times; the second call
fetches only degenerate single-point gaps `[v, v]` (closed
singletons at boundary timestamps of entries cached before the first
call) — in particular it inserts only empty-interval keys, which the
read path ignores. -/
theorem claim3_amended_idempotent_points {node : Node} {fuel : Nat} {h : Hist} {s e : Time}
    {r1 r2 : QueryResult}
    (hc1 : get_history node fuel h s e = some r1) (e1 : r1.raised = false)
    (hc2 : get_history node fuel r1.hist s e = some r2) (e2 : r2.raised = false) :
    r2.points = r1.points ∧
    ∀ a ∈ get_missing_intervals r1.hist s e,
      ∃ v, a.lo = some v ∧ a.hi = some v ∧ a.loOpen = false ∧ a.hiOpen = false := by
  have hdeg : ∀ a ∈ get_missing_intervals r1.hist s e,
      ∃ v, a.lo = some v ∧ a.hi = some v ∧ a.loOpen = false ∧ a.hiOpen = false := by
    intro a ha
    have hne := inter_all_nonempty a ha
    rcases nonempty_degenerate_or_contains_open hne with hd | ⟨lo', hi', hlt, hsub⟩
    · exact hd
    · exfalso
      obtain ⟨t, h1, h2, h3⟩ := exists_mem_Ioo_not_mem_list (keyBounds h) hlt
      have hmem : memI (get_missing_intervals r1.hist s e) t = true :=
        memI_iff.mpr ⟨a, ha, hsub t h1 h2⟩
      rw [memI_missing] at hmem
      obtain ⟨hs1, hs2, hav⟩ := hmem
      rcases covered_or_bound hc1 e1 hs1 hs2 with hcov | hbound
      · rw [hcov] at hav
        exact Bool.noConfusion hav
      · exact h3 hbound
  refine ⟨?_, hdeg⟩
  obtain ⟨hpts1, -⟩ := get_history_ok hc1 e1
  obtain ⟨hpts2, hcase2⟩ := get_history_ok hc2 e2
  rcases hcase2 with ⟨-, hh2, -⟩ | hp2
  · rw [hpts2, hh2, ← hpts1]
  · have hdeg2 : ∀ a ∈ get_missing_intervals r1.hist s e, pyOpen a.lo a.hi = [] := by
      intro a ha
      obtain ⟨v, hl, hh, -, -⟩ := hdeg a ha
      rw [hl, hh]
      exact pyOpen_degenerate (le_refl v)
    rw [hpts2, populate_degenerate_dvs hp2 hdeg2 s e, ← hpts1]


/-- Witness for the amended C3: querying `(0, 3)` twice from the
empty cache yields `[1, 2, 3, 3]` both times, with no gap left for
the second call. -/
theorem claim3_amended_idempotent_points_witness :
    ([⟨1, 1⟩, ⟨2, 2⟩, ⟨3, 3⟩, ⟨3, 3⟩] : List DataPoint) =
      [⟨1, 1⟩, ⟨2, 2⟩, ⟨3, 3⟩, ⟨3, 3⟩] ∧
    ∀ a ∈ get_missing_intervals
        [(pyOpen (some 0) (some 3),
          [(⟨1, 1⟩ : DataPoint), ⟨2, 2⟩, ⟨3, 3⟩, ⟨3, 3⟩])] 0 3,
      ∃ v, a.lo = some v ∧ a.hi = some v ∧ a.loOpen = false ∧ a.hiOpen = false :=
  @claim3_amended_idempotent_points nodeData 9 [] 0 3
    ⟨[(pyOpen (some 0) (some 3), [⟨1, 1⟩, ⟨2, 2⟩, ⟨3, 3⟩, ⟨3, 3⟩])], false,
      [⟨1, 1⟩, ⟨2, 2⟩, ⟨3, 3⟩, ⟨3, 3⟩], 2⟩
    ⟨[(pyOpen (some 0) (some 3), [⟨1, 1⟩, ⟨2, 2⟩, ⟨3, 3⟩, ⟨3, 3⟩])], false,
      [⟨1, 1⟩, ⟨2, 2⟩, ⟨3, 3⟩, ⟨3, 3⟩], 0⟩
    (by decide) rfl (by decide) rfl

end CachePy
